import Mathlib

/-!
# Verification of `src/validation/enterprise_dab_validator.py`

A shallow embedding of the enterprise Databricks Asset Bundle policy
validator.  YAML documents (as produced by `yaml.safe_load`) are modelled by
the inductive type `Yaml`; Python mappings become association lists in
document order (Python dicts preserve insertion order and have unique keys).
Python code that can raise (`.get`/`.items()`/iteration on objects of the
wrong type) is modelled in the `Except String` monad, the error string naming
the Python exception class.  Findings are modelled structurally: one
constructor per message template of the source, carrying the values that the
source interpolates into the message.
-/

namespace DabValidator

/-- A parsed YAML value, as produced by `yaml.safe_load`.  Mapping keys are
strings (the configurations handled by the validator only use string keys);
entries are kept in document order, mirroring Python dict insertion order.
Floats are not modelled (no configuration handled here contains one). -/
inductive Yaml where
  | str (s : String)
  | int (n : Int)
  | bool (b : Bool)
  | null
  | seq (items : List Yaml)
  | map (entries : List (String × Yaml))
deriving Repr, Inhabited

mutual

/-- Boolean equality on `Yaml` (structural). -/
def Yaml.beq : Yaml → Yaml → Bool
  | .str a, .str b => a == b
  | .int a, .int b => a == b
  | .bool a, .bool b => a == b
  | .null, .null => true
  | .seq a, .seq b => Yaml.beqList a b
  | .map a, .map b => Yaml.beqEntries a b
  | _, _ => false

/-- Boolean equality on lists of `Yaml`. -/
def Yaml.beqList : List Yaml → List Yaml → Bool
  | [], [] => true
  | a :: as, b :: bs => Yaml.beq a b && Yaml.beqList as bs
  | _, _ => false

/-- Boolean equality on mapping entry lists. -/
def Yaml.beqEntries : List (String × Yaml) → List (String × Yaml) → Bool
  | [], [] => true
  | (k₁, v₁) :: as, (k₂, v₂) :: bs =>
      k₁ == k₂ && Yaml.beq v₁ v₂ && Yaml.beqEntries as bs
  | _, _ => false

end

mutual

theorem Yaml.beq_iff : ∀ a b : Yaml, Yaml.beq a b = true ↔ a = b
  | .str a, .str b => by simp [Yaml.beq]
  | .int a, .int b => by simp [Yaml.beq]
  | .bool a, .bool b => by simp [Yaml.beq]
  | .null, .null => by simp [Yaml.beq]
  | .seq a, .seq b => by
      simp only [Yaml.beq, Yaml.beqList_iff a b, Yaml.seq.injEq]
  | .map a, .map b => by
      simp only [Yaml.beq, Yaml.beqEntries_iff a b, Yaml.map.injEq]
  | .str _, .int _ | .str _, .bool _ | .str _, .null | .str _, .seq _ | .str _, .map _
  | .int _, .str _ | .int _, .bool _ | .int _, .null | .int _, .seq _ | .int _, .map _
  | .bool _, .str _ | .bool _, .int _ | .bool _, .null | .bool _, .seq _ | .bool _, .map _
  | .null, .str _ | .null, .int _ | .null, .bool _ | .null, .seq _ | .null, .map _
  | .seq _, .str _ | .seq _, .int _ | .seq _, .bool _ | .seq _, .null | .seq _, .map _
  | .map _, .str _ | .map _, .int _ | .map _, .bool _ | .map _, .null | .map _, .seq _ => by
      simp [Yaml.beq]

theorem Yaml.beqList_iff : ∀ a b : List Yaml, Yaml.beqList a b = true ↔ a = b
  | [], [] => by simp [Yaml.beqList]
  | a :: as, b :: bs => by
      simp [Yaml.beqList, Yaml.beq_iff a b, Yaml.beqList_iff as bs]
  | [], _ :: _ => by simp [Yaml.beqList]
  | _ :: _, [] => by simp [Yaml.beqList]

theorem Yaml.beqEntries_iff :
    ∀ a b : List (String × Yaml), Yaml.beqEntries a b = true ↔ a = b
  | [], [] => by simp [Yaml.beqEntries]
  | (k₁, v₁) :: as, (k₂, v₂) :: bs => by
      simp [Yaml.beqEntries, Yaml.beq_iff v₁ v₂, Yaml.beqEntries_iff as bs,
        and_assoc]
  | [], _ :: _ => by simp [Yaml.beqEntries]
  | _ :: _, [] => by simp [Yaml.beqEntries]

end

instance : DecidableEq Yaml := fun a b =>
  decidable_of_iff _ (Yaml.beq_iff a b)

instance : BEq Yaml := ⟨Yaml.beq⟩

instance {ε α : Type} [DecidableEq ε] [DecidableEq α] :
    DecidableEq (Except ε α) := fun a b =>
  match a, b with
  | .ok x, .ok y => decidable_of_iff (x = y) (by simp)
  | .error x, .error y => decidable_of_iff (x = y) (by simp)
  | .ok _, .error _ => isFalse (by simp)
  | .error _, .ok _ => isFalse (by simp)

/-- First-match association-list lookup, the semantics of Python dict
indexing (Python dicts cannot hold duplicate keys, so on the dicts that
actually arise the first match is the only match). -/
def Yaml.lookup : List (String × Yaml) → String → Option Yaml
  | [], _ => none
  | (k, v) :: rest, key => if k = key then some v else Yaml.lookup rest key

/-- Python truthiness (`bool(x)`) for the values modelled by `Yaml`. -/
def pyTruthy : Yaml → Bool
  | .str s => !s.isEmpty
  | .int n => n != 0
  | .bool b => b
  | .null => false
  | .seq xs => !xs.isEmpty
  | .map es => !es.isEmpty

/-- Python `obj.get(key, default)`: defined on dicts, raises
`AttributeError` on every other value. -/
def pyGet (v : Yaml) (key : String) (default : Yaml) : Except String Yaml :=
  match v with
  | .map es => .ok ((Yaml.lookup es key).getD default)
  | _ => .error "AttributeError"

/-- Python `obj.items()`: defined on dicts, raises `AttributeError`
otherwise. -/
def pyItems (v : Yaml) : Except String (List (String × Yaml)) :=
  match v with
  | .map es => .ok es
  | _ => .error "AttributeError"

/-- Python iteration `for x in obj`: sequences yield their items, dicts
their keys, strings their characters (as one-character strings); other
values raise `TypeError`. -/
def pyIterList (v : Yaml) : Except String (List Yaml) :=
  match v with
  | .seq xs => .ok xs
  | .map es => .ok (es.map (fun e => Yaml.str e.1))
  | .str s => .ok (s.toList.map (fun c => Yaml.str (String.mk [c])))
  | _ => .error "TypeError"

/-- Python `key in obj` for a string key: dicts test key containment,
sequences test membership, strings test substring containment; other values
raise `TypeError`. -/
def pyContains (v : Yaml) (key : String) : Except String Bool :=
  match v with
  | .map es => .ok ((Yaml.lookup es key).isSome)
  | .seq xs => .ok (xs.contains (Yaml.str key))
  | .str s => .ok (decide (key.toList <:+: s.toList))
  | _ => .error "TypeError"

/-- Python `dict.update`: entries of `updates` override existing keys in
place (keeping their position) and append fresh keys at the end, in order. -/
def dictUpdate (base : List (String × Yaml)) (updates : List (String × Yaml)) :
    List (String × Yaml) :=
  updates.foldl (fun acc kv =>
    if (Yaml.lookup acc kv.1).isSome then
      acc.map (fun e => if e.1 = kv.1 then (e.1, kv.2) else e)
    else
      acc ++ [kv]) base

/-- The comma-space separator Python `repr` puts before every non-first
container element. -/
def commaSep (isLast : Bool) : String := if isLast then "" else ", "

mutual

/-- Python `repr` of a parsed YAML value (strings quoted, Python quote
choice; control-character escaping is not modelled — no configuration
handled here needs it). -/
def pyRepr : Yaml → String
  | .str s =>
      if s.toList.contains '\'' && !s.toList.contains '"' then "\"" ++ s ++ "\""
      else "'" ++ s ++ "'"
  | .int n => toString n
  | .bool b => if b then "True" else "False"
  | .null => "None"
  | .seq xs => "[" ++ pyReprList xs ++ "]"
  | .map es => "\x7b" ++ pyReprEntries es ++ "\x7d"

/-- Comma-joined `repr`s of list items. -/
def pyReprList : List Yaml → String
  | [] => ""
  | x :: rest => pyRepr x ++ commaSep rest.isEmpty ++ pyReprList rest

/-- Comma-joined `repr`s of dict entries. -/
def pyReprEntries : List (String × Yaml) → String
  | [] => ""
  | (k, v) :: rest =>
      pyRepr (Yaml.str k) ++ ": " ++ pyRepr v ++ commaSep rest.isEmpty ++
      pyReprEntries rest

end

/-- Python `str()` applied to a parsed YAML value: strings are returned
verbatim, every other value renders as its `repr`. -/
def pyStr : Yaml → String
  | .str s => s
  | v => pyRepr v

/-- The variable-reference sentinel `${` that marks late-bound values. -/
def varSentinel : String := "$\x7b"

/-- Python `s.startswith(pre)`. -/
def pyStartsWith (s pre : String) : Bool := pre.toList.isPrefixOf s.toList

/-- A validation finding.  One constructor per message template of the
source; each carries the values interpolated into the message.  The severity
is given by which bucket of `Buckets` holds the finding. -/
inductive Finding where
  /-- error: `Failed to load {file_path}: {str(e)}` -/
  | loadFailed (filePath : String) (errMsg : String)
  /-- error: `Policy violation: '{current_path}' in {file_path} must use variables, not hardcoded value '{value}'` -/
  | hardcodedSensitive (fieldPath : String) (filePath : String) (value : String)
  /-- warning: `Naming convention: Job '{job_name}' in {file_path} should start with capital letter` -/
  | jobNameCase (jobName : String) (filePath : String)
  /-- warning: `Best practice: Job '{job_name}' name should include environment reference` -/
  | jobNameEnvRef (jobName : String)
  /-- warning: `Naming convention: Job cluster key '{cluster_key}' should use lowercase with underscores` -/
  | clusterKeyCase (clusterKey : String)
  /-- error: `Policy violation: Job '{job_name}' in {file_path} missing required tags: {missing_tags}` (the source renders the Python set; the constructor carries the missing names) -/
  | missingTags (jobName : String) (filePath : String) (missing : List String)
  /-- error: `Security violation: Potential hardcoded secret found in {file_path}` -/
  | hardcodedSecret (filePath : String)
  /-- warning: `Security concern: Notebook path '{notebook_path}' in job '{job_name}' uses non-standard location` -/
  | notebookPath (nbPath : String) (jobName : String)
  /-- warning: `Security policy: Job '{job_name}' max_concurrent_runs ({max_concurrent}) exceeds recommended limit of 5` -/
  | maxConcurrent (jobName : String) (maxRuns : Int)
  /-- suggestion: `Cost optimization: Job '{job_name}' cluster has {num_workers} workers. ...` -/
  | numWorkers (jobName : String) (workers : String)
  /-- suggestion: `Cost optimization: Job '{job_name}' uses hardcoded node_type_id. ...` -/
  | nodeTypeHardcoded (jobName : String)
  /-- suggestion: `Best practice: Job '{job_name}' should have email notifications for failures` -/
  | noEmailNotif (jobName : String)
  /-- suggestion: `Best practice: Job '{job_name}' should have timeout_seconds configured` -/
  | noTimeout (jobName : String)
  /-- suggestion: `Best practice: Job '{job_name}' should consider retry_on_timeout configuration` -/
  | noRetry (jobName : String)
  /-- warning: `Environment consistency: Variable '{var_name}' missing in environments: {missing_envs}` -/
  | envVarMissing (varName : String) (missingEnvs : List String)
deriving DecidableEq, Repr

/-- The three severity buckets `self.errors` / `self.warnings` /
`self.suggestions` owned by the validator instance. -/
structure Buckets where
  errors : List Finding
  warnings : List Finding
  suggestions : List Finding
deriving DecidableEq, Repr

/-- Policy constant `self.required_tags` (a Python set literal; carried here
in source order). -/
def requiredTags : List String := ["cost_center", "environment", "team"]

/-- Policy constant `self.sensitive_fields`. -/
def sensitiveFields : List String :=
  ["existing_cluster_id", "instance_pool_id", "warehouse_id",
   "catalog", "schema", "volume", "storage_location"]

/-- `EnterpriseDabValidator.load_yaml`, with the outcome of
`yaml.safe_load(open(file_path))` supplied as an `Except` value (`.error e`
models any raised exception with text `e`).  Returns the tree together with
the findings appended to `self.errors`.  Mirrors `yaml.safe_load(file) or
\x7b\x7d`: a falsy loaded value is replaced by the empty dict. -/
def loadYaml (filePath : String) (result : Except String Yaml) :
    Yaml × List Finding :=
  match result with
  | .ok y => (if pyTruthy y then y else .map [], [])
  | .error e => (.map [], [Finding.loadFailed filePath e])

/-- The fixed project-relative path `self.databricks_yaml`. -/
def databricksYamlPath : String := "databricks.yml"

/-- The literal `${bundle.environment}` that job display names must
contain. -/
def envRefLit : String := varSentinel ++ "bundle.environment" ++ "\x7d"

/-- Runs `f` over a list, concatenating finding lists, short-circuiting on
the first raised exception (the semantics of a Python `for` loop whose body
may raise). -/
def exceptConcat {α : Type} (f : α → Except String (List Finding)) :
    List α → Except String (List Finding)
  | [] => .ok []
  | x :: rest => do
      let a ← f x
      let b ← exceptConcat f rest
      .ok (a ++ b)

/-! ## Variable-usage policy evaluator (`check_variable_usage_policy`)

The nested `check_object` walks the tree and never raises (every branch is
guarded by `isinstance`), so it is modelled as a total function. -/

mutual

/-- The nested `check_object(obj, path)` of
`check_variable_usage_policy`. -/
def checkObject (filePath : String) : Yaml → String → List Finding
  | .map es, path => checkObjectEntries filePath es path
  | .seq xs, path => checkObjectItems filePath xs path 0
  | _, _ => []

/-- The dict branch of `check_object`: per entry, test the sensitive-field
policy, then recurse into the value. -/
def checkObjectEntries (filePath : String) :
    List (String × Yaml) → String → List Finding
  | [], _ => []
  | (k, v) :: rest, path =>
      let currentPath := if path = "" then k else path ++ "." ++ k
      (if sensitiveFields.contains k then
        match v with
        | .str s =>
            if pyStartsWith s varSentinel then []
            else [Finding.hardcodedSensitive currentPath filePath s]
        | _ => []
      else []) ++
      checkObject filePath v currentPath ++
      checkObjectEntries filePath rest path

/-- The list branch of `check_object`: recurse into each item with an
`[i]` path suffix. -/
def checkObjectItems (filePath : String) :
    List Yaml → String → Nat → List Finding
  | [], _, _ => []
  | x :: rest, path, i =>
      checkObject filePath x (path ++ "[" ++ toString i ++ "]") ++
      checkObjectItems filePath rest path (i + 1)

end

/-- `EnterpriseDabValidator.check_variable_usage_policy` (errors only). -/
def checkVariableUsagePolicy (jobConfig : Yaml) (filePath : String) :
    List Finding :=
  checkObject filePath jobConfig ""

/-! ## Naming convention evaluator (`check_naming_conventions`) -/

/-- `re.match(r'^[A-Z][a-zA-Z0-9_]*', s)` succeeds iff `s` starts with an
ASCII uppercase letter (the rest of the pattern can match the empty
string). -/
def jobNameStartsUpper (s : String) : Bool :=
  match s.toList with
  | [] => false
  | c :: _ => c.isUpper

/-- `re.match(r'^[a-z][a-z0-9_]*$', s)`: entirely lowercase letters, digits
and underscores, starting with a lowercase letter.  (Python's `$` would also
accept one trailing newline; no configuration handled here has one.) -/
def clusterKeyOk (s : String) : Bool :=
  match s.toList with
  | [] => false
  | c :: rest => c.isLower && rest.all (fun d => d.isLower || d.isDigit || d = '_')

/-- The `job_clusters` loop of `check_naming_conventions`. -/
def checkNamingClusters : List Yaml → Except String (List Finding)
  | [] => .ok []
  | c :: rest => do
      let ck ← pyGet c "job_cluster_key" (.str "")
      let fs ←
        if pyTruthy ck then
          match ck with
          | .str s =>
              .ok (if clusterKeyOk s then [] else [Finding.clusterKeyCase s])
          | _ => .error "TypeError"
        else
          .ok []
      let rest' ← checkNamingClusters rest
      .ok (fs ++ rest')

/-- The per-job body of `check_naming_conventions`. -/
def checkNamingJob (jobName : String) (jobDef : Yaml) (filePath : String) :
    Except String (List Finding) := do
  let f₁ := if jobNameStartsUpper jobName then []
            else [Finding.jobNameCase jobName filePath]
  let nameVal ← pyGet jobDef "name" (.str "")
  let f₂ := if decide (envRefLit.toList <:+: (pyStr nameVal).toList) then []
            else [Finding.jobNameEnvRef jobName]
  let clustersY ← pyGet jobDef "job_clusters" (.seq [])
  let clusters ← pyIterList clustersY
  let f₃ ← checkNamingClusters clusters
  .ok (f₁ ++ f₂ ++ f₃)

/-- `EnterpriseDabValidator.check_naming_conventions` (warnings only). -/
def checkNamingConventions (jobConfig : Yaml) (filePath : String) :
    Except String (List Finding) := do
  let resources ← pyGet jobConfig "resources" (.map [])
  let jobsY ← pyGet resources "jobs" (.map [])
  let jobs ← pyItems jobsY
  exceptConcat (fun e => checkNamingJob e.1 e.2 filePath) jobs

/-! ## Required-tag evaluator (`check_required_tags`)

`tags = job_def.get("tags", {})` aliases the job's own tags dict, and
`tags.update(cluster_tags)` mutates it in place; the model therefore
returns the updated configuration tree alongside the findings. -/

/-- Replace the value at `key` in a dict, keeping its position (the effect
of mutating the dict object stored there). -/
def setValue (es : List (String × Yaml)) (key : String) (v : Yaml) :
    List (String × Yaml) :=
  es.map (fun e => if e.1 = key then (e.1, v) else e)

/-- `cluster.get("new_cluster", \x7b\x7d).get("custom_tags", \x7b\x7d)`. -/
def clusterCustomTagsE (cluster : Yaml) : Except String Yaml := do
  let nc ← pyGet cluster "new_cluster" (.map [])
  pyGet nc "custom_tags" (.map [])

/-- `tags.update(cluster_tags)`.  A non-dict receiver raises
`AttributeError`; a non-dict argument is modelled as `TypeError` (Python
would also accept an iterable of pairs, a form no configuration handled
here uses). -/
def updateTags (tags ct : Yaml) : Except String Yaml :=
  match tags with
  | .map ts =>
      match ct with
      | .map cs => .ok (.map (dictUpdate ts cs))
      | _ => .error "TypeError"
  | _ => .error "AttributeError"

/-- The `for cluster in job_def.get("job_clusters", [])` update loop. -/
def foldTags : Yaml → List Yaml → Except String Yaml
  | tags, [] => .ok tags
  | tags, c :: rest => do
      let ct ← clusterCustomTagsE c
      let tags' ← updateTags tags ct
      foldTags tags' rest

/-- Collect a job's tags and overlay every cluster's custom tags, ending
with `set(tags.keys())` which raises on a non-dict. -/
def processJobTags (jobDef : Yaml) : Except String (List (String × Yaml)) := do
  let tags₀ ← pyGet jobDef "tags" (.map [])
  let clustersY ← pyGet jobDef "job_clusters" (.seq [])
  let clusters ← pyIterList clustersY
  let final ← foldTags tags₀ clusters
  match final with
  | .map ts => .ok ts
  | _ => .error "AttributeError"

/-- `self.required_tags - set(tags.keys())`, kept in the fixed order of
`requiredTags` (Python renders the set in unspecified order). -/
def missingOf (ts : List (String × Yaml)) : List String :=
  requiredTags.filter (fun t => !(ts.map Prod.fst).contains t)

/-- The per-job body of `check_required_tags`, returning the findings and
the job definition as left behind by the in-place `tags.update` calls. -/
def checkRequiredTagsJob (jobName : String) (jobDef : Yaml) (filePath : String) :
    Except String (List Finding × Yaml) := do
  let ts ← processJobTags jobDef
  let missing := missingOf ts
  let fs := if missing.isEmpty then []
            else [Finding.missingTags jobName filePath missing]
  let jobDef' :=
    match jobDef with
    | .map des =>
        if (Yaml.lookup des "tags").isSome then .map (setValue des "tags" (.map ts))
        else jobDef
    | _ => jobDef
  .ok (fs, jobDef')

/-- The jobs loop of `check_required_tags`. -/
def checkRequiredTagsJobs (filePath : String) :
    List (String × Yaml) → Except String (List Finding × List (String × Yaml))
  | [] => .ok ([], [])
  | (n, d) :: rest => do
      let (fs, d') ← checkRequiredTagsJob n d filePath
      let (fs', rest') ← checkRequiredTagsJobs filePath rest
      .ok (fs ++ fs', (n, d') :: rest')

/-- Write the mutated jobs mapping back into the tree.  The jobs dict is
reachable from the tree only when `resources` and `resources.jobs` are
present as dicts; otherwise the loop ran over a fresh default dict and the
tree is unchanged. -/
def replaceJobs (cfg : Yaml) (jobs' : List (String × Yaml)) : Yaml :=
  match cfg with
  | .map ces =>
      match Yaml.lookup ces "resources" with
      | some (.map res) =>
          match Yaml.lookup res "jobs" with
          | some (.map _) =>
              .map (setValue ces "resources"
                (.map (setValue res "jobs" (.map jobs'))))
          | _ => cfg
      | _ => cfg
  | _ => cfg

/-- `EnterpriseDabValidator.check_required_tags` (errors only), together
with the configuration tree as left behind by its in-place mutation. -/
def checkRequiredTags (jobConfig : Yaml) (filePath : String) :
    Except String (List Finding × Yaml) := do
  let resources ← pyGet jobConfig "resources" (.map [])
  let jobsY ← pyGet resources "jobs" (.map [])
  let jobs ← pyItems jobsY
  let (fs, jobs') ← checkRequiredTagsJobs filePath jobs
  .ok (fs, replaceJobs jobConfig jobs')

/-! ## Security compliance evaluator (`check_security_compliance`)

`job_str = yaml.dump(job_config)` re-serializes the parsed tree with
PyYAML's defaults (block style, keys sorted, scalars in plain style when the
resolver permits), and the four secret regexes are searched in that text.
`yamlDump` models that serialization; the plain-scalar test is a
conservative fragment of PyYAML's (it agrees with PyYAML on identifier-like
scalars such as the ones appearing in this development, and on strings the
resolver would re-read as booleans, null or numbers, which PyYAML quotes). -/

/-- A string PyYAML would emit in (unquoted) plain style: nonempty,
identifier-like characters only, starting with a letter, `_` or `/`, and not
a word the YAML resolver re-reads as a boolean or null. -/
def plainScalarSafe (s : String) : Bool :=
  match s.toList with
  | [] => false
  | c :: _ =>
      (c.isAlpha || c = '_' || c = '/') &&
      s.toList.all (fun d => d.isAlphanum || d = '_' || d = '-' || d = '.' || d = '/') &&
      !(["true", "false", "yes", "no", "on", "off", "null", "none"].contains
          (String.mk (s.toList.map Char.toLower)))

/-- PyYAML rendering of a scalar leaf (collections are handled by the block
emitters below). -/
def dumpScalar : Yaml → String
  | .str s => if plainScalarSafe s then s else "'" ++ s ++ "'"
  | .int n => toString n
  | .bool b => if b then "true" else "false"
  | .null => "null"
  | _ => ""

/-- Code-point lexicographic `≤` on strings, the order Python's `sorted`
uses on `str` keys. -/
def strLeChars : List Char → List Char → Bool
  | [], _ => true
  | _ :: _, [] => false
  | a :: as, b :: bs =>
      if a.toNat < b.toNat then true
      else if b.toNat < a.toNat then false
      else strLeChars as bs

/-- Insert an entry into a key-sorted entry list (PyYAML dumps mappings
with `sort_keys=True`). -/
def insertSorted (e : String × Yaml) :
    List (String × Yaml) → List (String × Yaml)
  | [] => [e]
  | f :: rest =>
      if strLeChars e.1.toList f.1.toList then e :: f :: rest
      else f :: insertSorted e rest

/-- Sort dict entries by key, as `yaml.dump` does. -/
def sortEntries (es : List (String × Yaml)) : List (String × Yaml) :=
  es.foldr insertSorted []

/-- `n` spaces of indentation. -/
def indStr (n : Nat) : String := String.mk (List.replicate n ' ')

mutual

/-- Sort every mapping of the tree by key (the effect of
`sort_keys=True`, applied once up front; PyYAML sorts each mapping as it
emits it, which renders identically). -/
def sortYamlKeys : Yaml → Yaml
  | .map es => .map (sortEntries (sortYamlEntries es))
  | .seq xs => .seq (sortYamlList xs)
  | v => v

/-- `sortYamlKeys` over dict values. -/
def sortYamlEntries : List (String × Yaml) → List (String × Yaml)
  | [] => []
  | (k, v) :: rest => (k, sortYamlKeys v) :: sortYamlEntries rest

/-- `sortYamlKeys` over list items. -/
def sortYamlList : List Yaml → List Yaml
  | [] => []
  | x :: rest => sortYamlKeys x :: sortYamlList rest

end

mutual

/-- Block-style rendering of (already sorted) mapping entries at the given
indent. -/
def dumpMapEntries (ind : Nat) : List (String × Yaml) → String
  | [] => ""
  | (k, v) :: rest =>
      indStr ind ++ dumpScalar (.str k) ++ dumpAfterKey ind v ++
      dumpMapEntries ind rest

/-- What follows `key` in a block mapping line: scalars and empty
collections stay on the line, nonempty collections open a block (sequences
indentless, PyYAML's default). -/
def dumpAfterKey (ind : Nat) : Yaml → String
  | .map [] => ": \x7b\x7d\n"
  | .seq [] => ": []\n"
  | .map es => ":\n" ++ dumpMapEntries (ind + 2) es
  | .seq xs => ":\n" ++ dumpSeqItems ind xs
  | v => ": " ++ dumpScalar v ++ "\n"

/-- Block-style rendering of sequence items at the given indent. -/
def dumpSeqItems (ind : Nat) : List Yaml → String
  | [] => ""
  | x :: rest => indStr ind ++ "- " ++ dumpSeqItemBody ind x ++ dumpSeqItems ind rest

/-- The body of a `- ` item: a nonempty mapping or sequence continues
inline on the dash line and indents its remaining lines. -/
def dumpSeqItemBody (ind : Nat) : Yaml → String
  | .map [] => "\x7b\x7d\n"
  | .seq [] => "[]\n"
  | .map ((k, v) :: rest) =>
      dumpScalar (.str k) ++ dumpAfterKey (ind + 2) v ++
      dumpMapEntries (ind + 2) rest
  | .seq (x :: xs) => "- " ++ dumpSeqItemBody (ind + 2) x ++ dumpSeqItems (ind + 2) xs
  | v => dumpScalar v ++ "\n"

end

/-- Models `yaml.dump(job_config)` with PyYAML defaults.  A top-level plain
scalar is followed by the `...` document-end marker PyYAML emits after
open-ended plain scalars. -/
def yamlDump (y : Yaml) : String :=
  match sortYamlKeys y with
  | .map [] => "\x7b\x7d\n"
  | .seq [] => "[]\n"
  | .map es => dumpMapEntries 0 es
  | .seq xs => dumpSeqItems 0 xs
  | .str s => if plainScalarSafe s then s ++ "\n...\n" else "'" ++ s ++ "'\n"
  | v => dumpScalar v ++ "\n...\n"

/-! ### The four secret regexes

`keyword[s]?\s*[:=]\s*['"][^'"]+['"]`, searched case-insensitively.  The
pattern is deterministic (each greedy step either fails outright or leads to
the unique viable continuation), so it is modelled by a direct scanner. -/

/-- Python `\s`. -/
def isPyWs (c : Char) : Bool :=
  c = ' ' || c = '\t' || c = '\n' || c = '\r' || c = '\x0b' || c = '\x0c'

/-- A quote character `'` or `"`. -/
def isQuoteChar (c : Char) : Bool := c = '\'' || c = '"'

/-- Consume `kw` (given lowercase) case-insensitively. -/
def stripKeywordCI : List Char → List Char → Option (List Char)
  | [], cs => some cs
  | _ :: _, [] => none
  | k :: ks, c :: cs => if c.toLower = k then stripKeywordCI ks cs else none

/-- Match `[s]?\s*[:=]\s*['"][^'"]+['"]` at the head of `cs`. -/
def matchSecretTail (cs : List Char) : Bool :=
  let cs := match cs with
    | c :: rest => if c.toLower = 's' then rest else c :: rest
    | [] => []
  let cs := cs.dropWhile isPyWs
  match cs with
  | c :: rest =>
      if c = ':' || c = '=' then
        let rest := rest.dropWhile isPyWs
        match rest with
        | q :: body =>
            if isQuoteChar q then
              let run := body.takeWhile (fun d => !isQuoteChar d)
              !run.isEmpty && !(body.drop run.length).isEmpty
            else false
        | [] => false
      else false
  | [] => false

/-- Match the whole secret pattern at the head of `cs`. -/
def matchSecretAt (kw : List Char) (cs : List Char) : Bool :=
  match stripKeywordCI kw cs with
  | some rest => matchSecretTail rest
  | none => false

/-- `re.search`: try the pattern at every start position. -/
def searchSecret (kw : List Char) : List Char → Bool
  | [] => matchSecretAt kw []
  | c :: rest => matchSecretAt kw (c :: rest) || searchSecret kw rest

/-- The four keywords of `self.security_patterns`, in source order. -/
def securityKeywords : List String := ["password", "secret", "token", "key"]

/-- The `for pattern in self.security_patterns` loop: one finding per
matching pattern (not per occurrence). -/
def checkSecurityPatterns (text : String) (filePath : String) : List Finding :=
  securityKeywords.foldr
    (fun kw acc =>
      (if searchSecret kw.toList text.toList then [Finding.hardcodedSecret filePath]
       else []) ++ acc) []

/-- The `for task in job_def.get("tasks", [])` loop of
`check_security_compliance`. -/
def checkSecurityTasks (jobName : String) : List Yaml → Except String (List Finding)
  | [] => .ok []
  | t :: rest => do
      let nb ← pyGet t "notebook_task" (.map [])
      let np ← pyGet nb "notebook_path" (.str "")
      let hit ← do
        let b₁ ← pyContains np "/tmp/"
        if b₁ then pure true
        else pyContains np "/personal/"
      let fs := if hit then
          [Finding.notebookPath (match np with | .str s => s | v => pyStr v) jobName]
        else []
      let rest' ← checkSecurityTasks jobName rest
      .ok (fs ++ rest')

/-- The per-job body of `check_security_compliance` (task paths, then the
`max_concurrent_runs` limit; `v > 5` on a non-numeric value raises
`TypeError`). -/
def checkSecurityJob (jobName : String) (jobDef : Yaml) :
    Except String (List Finding) := do
  let tasksY ← pyGet jobDef "tasks" (.seq [])
  let tasks ← pyIterList tasksY
  let fs ← checkSecurityTasks jobName tasks
  let mc ← pyGet jobDef "max_concurrent_runs" (.int 1)
  let fs₂ ←
    match mc with
    | .int n => .ok (if n > 5 then [Finding.maxConcurrent jobName n] else [])
    | .bool _ => .ok []
    | _ => .error "TypeError"
  .ok (fs ++ fs₂)

/-- `EnterpriseDabValidator.check_security_compliance`: the pair of
(errors appended, warnings appended). -/
def checkSecurityCompliance (jobConfig : Yaml) (filePath : String) :
    Except String (List Finding × List Finding) := do
  let secretFs := checkSecurityPatterns (yamlDump jobConfig) filePath
  let resources ← pyGet jobConfig "resources" (.map [])
  let jobsY ← pyGet resources "jobs" (.map [])
  let jobs ← pyItems jobsY
  let warnFs ← exceptConcat (fun e => checkSecurityJob e.1 e.2) jobs
  .ok (secretFs, warnFs)

/-! ## Cost-optimization evaluator (`check_cost_optimization`) -/

/-- Python `str.isdigit` restricted to ASCII (no configuration handled here
contains non-ASCII digits). -/
def isDigits (s : String) : Bool :=
  !s.isEmpty && s.toList.all Char.isDigit

/-- Python `int(s)` for a string of ASCII digits. -/
def digitsToNat (cs : List Char) : Nat :=
  cs.foldl (fun a c => a * 10 + (c.toNat - 48)) 0

/-- The per-cluster body of `check_cost_optimization` (never raises beyond
the `.get` calls: both checks are guarded by `isinstance`).  `bool` passes
`isinstance(x, int)` but `str(True).isdigit()` is false, so booleans never
fire. -/
def checkCostCluster (jobName : String) (cluster : Yaml) :
    Except String (List Finding) := do
  let nc ← pyGet cluster "new_cluster" (.map [])
  let nw ← pyGet nc "num_workers" .null
  let f₁ :=
    match nw with
    | .int n => if isDigits (toString n) && n > 10 then
        [Finding.numWorkers jobName (toString n)] else []
    | .str s => if isDigits s && digitsToNat s.toList > 10 then
        [Finding.numWorkers jobName s] else []
    | _ => []
  let nt ← pyGet nc "node_type_id" .null
  let f₂ :=
    match nt with
    | .str s => if !pyStartsWith s varSentinel then [Finding.nodeTypeHardcoded jobName]
        else []
    | _ => []
  .ok (f₁ ++ f₂)

/-- The per-job body of `check_cost_optimization`. -/
def checkCostJob (jobName : String) (jobDef : Yaml) :
    Except String (List Finding) := do
  let clustersY ← pyGet jobDef "job_clusters" (.seq [])
  let clusters ← pyIterList clustersY
  exceptConcat (checkCostCluster jobName) clusters

/-- `EnterpriseDabValidator.check_cost_optimization` (suggestions only). -/
def checkCostOptimization (jobConfig : Yaml) (_filePath : String) :
    Except String (List Finding) := do
  let resources ← pyGet jobConfig "resources" (.map [])
  let jobsY ← pyGet resources "jobs" (.map [])
  let jobs ← pyItems jobsY
  exceptConcat (fun e => checkCostJob e.1 e.2) jobs

/-! ## Best-practices evaluator (`check_best_practices`) -/

/-- The per-job body of `check_best_practices`. -/
def checkBestPracticesJob (jobName : String) (jobDef : Yaml) :
    Except String (List Finding) := do
  let en ← pyGet jobDef "email_notifications" (.map [])
  let onf ← pyGet en "on_failure" .null
  let f₁ := if pyTruthy onf then [] else [Finding.noEmailNotif jobName]
  let hasTimeout ← pyContains jobDef "timeout_seconds"
  let f₂ := if hasTimeout then [] else [Finding.noTimeout jobName]
  let hasRetry ← pyContains jobDef "retry_on_timeout"
  let f₃ := if hasRetry then [] else [Finding.noRetry jobName]
  .ok (f₁ ++ f₂ ++ f₃)

/-- `EnterpriseDabValidator.check_best_practices` (suggestions only). -/
def checkBestPractices (jobConfig : Yaml) (_filePath : String) :
    Except String (List Finding) := do
  let resources ← pyGet jobConfig "resources" (.map [])
  let jobsY ← pyGet resources "jobs" (.map [])
  let jobs ← pyItems jobsY
  exceptConcat (fun e => checkBestPracticesJob e.1 e.2) jobs

/-! ## Environment extraction and the consistency checker -/

/-- `\x7b**global_variables, **target_variables\x7d`: dict unpacking, which
raises `TypeError` on a non-mapping operand.  Equal to `dictUpdate` (keys of
the first operand keep their position, later values win, fresh keys are
appended). -/
def mergeVars (globalVars targetVars : Yaml) : Except String Yaml :=
  match globalVars with
  | .map gs =>
      match targetVars with
      | .map ts => .ok (.map (dictUpdate gs ts))
      | _ => .error "TypeError"
  | _ => .error "TypeError"

/-- The `for target_name, target_config in targets.items()` loop of
`extract_environment_variables`. -/
def extractTargets (globalVars : Yaml) :
    List (String × Yaml) → Except String (List (String × Yaml))
  | [] => .ok []
  | (tn, tc) :: rest => do
      let tv ← pyGet tc "variables" (.map [])
      let merged ← mergeVars globalVars tv
      let rest' ← extractTargets globalVars rest
      .ok ((tn, merged) :: rest')

/-- `EnterpriseDabValidator.extract_environment_variables`, with the
outcome of reading `databricks.yml` supplied as an `Except` value.  Returns
the environment map together with the findings the loader appended to
`self.errors`. -/
def extractEnvironmentVariables (dbLoad : Except String Yaml) :
    Except String (List (String × Yaml) × List Finding) := do
  let (config, loadFs) := loadYaml databricksYamlPath dbLoad
  if !pyTruthy config then return ([], loadFs)
  let globalVars ← pyGet config "variables" (.map [])
  let targetsY ← pyGet config "targets" (.map [])
  let targets ← pyItems targetsY
  let envs ← extractTargets globalVars targets
  if envs.isEmpty && pyTruthy globalVars then
    return ([("global", globalVars)], loadFs)
  return (envs, loadFs)

/-- The `all_var_names` accumulation (`set.update(env_vars.keys())`),
modelled as first-seen-order deduplication — Python's set iteration order is
unspecified, and no property proved below depends on the order. -/
def collectVarNames : List (String × Yaml) → List String →
    Except String (List String)
  | [], acc => .ok acc
  | (_, ev) :: rest, acc => do
      let es ← pyItems ev
      collectVarNames rest
        ((es.map Prod.fst).foldl
          (fun a k => if a.contains k then a else a ++ [k]) acc)

/-- The `missing_envs` loop for one variable name. -/
def envsMissingVar (v : String) :
    List (String × Yaml) → Except String (List String)
  | [] => .ok []
  | (en, ev) :: rest => do
      let has ← pyContains ev v
      let rest' ← envsMissingVar v rest
      .ok ((if has then [] else [en]) ++ rest')

/-- The `for var_name in all_var_names` loop. -/
def consistencyWarnings (envs : List (String × Yaml)) :
    List String → Except String (List Finding)
  | [] => .ok []
  | v :: rest => do
      let miss ← envsMissingVar v envs
      let rest' ← consistencyWarnings envs rest
      .ok ((if miss.isEmpty then [] else [Finding.envVarMissing v miss]) ++ rest')

/-- `EnterpriseDabValidator.validate_environment_consistency`: the pair of
(findings the loader appended to `self.errors`, findings appended to
`self.warnings`). -/
def validateEnvironmentConsistency (dbLoad : Except String Yaml) :
    Except String (List Finding × List Finding) := do
  let (envs, loadFs) ← extractEnvironmentVariables dbLoad
  if envs.length < 2 then return (loadFs, [])
  let names ← collectVarNames envs []
  let ws ← consistencyWarnings envs names
  return (loadFs, ws)

/-! ## Orchestrator -/

/-- `EnterpriseDabValidator.validate_job_file`, with the outcome of reading
the file supplied as an `Except` value.  Returns the findings appended to
the three buckets, in append order; an exception raised by an evaluator
propagates (`.error`). -/
def validateJobFile (filePath : String) (load : Except String Yaml) :
    Except String Buckets := do
  let (jobConfig, loadFs) := loadYaml filePath load
  if !pyTruthy jobConfig then return ⟨loadFs, [], []⟩
  let e₁ := checkVariableUsagePolicy jobConfig filePath
  let w₂ ← checkNamingConventions jobConfig filePath
  let (e₃, jobConfig') ← checkRequiredTags jobConfig filePath
  let (e₄, w₄) ← checkSecurityCompliance jobConfig' filePath
  let s₅ ← checkCostOptimization jobConfig' filePath
  let s₆ ← checkBestPractices jobConfig' filePath
  return ⟨loadFs ++ e₁ ++ e₃ ++ e₄, w₂ ++ w₄, s₅ ++ s₆⟩

/-- The per-file loop of `EnterpriseDabValidator.validate`. -/
def validateJobFiles : List (String × Except String Yaml) →
    Except String Buckets
  | [] => .ok ⟨[], [], []⟩
  | (fp, load) :: rest => do
      let b ← validateJobFile fp load
      let b' ← validateJobFiles rest
      .ok ⟨b.errors ++ b'.errors, b.warnings ++ b'.warnings,
           b.suggestions ++ b'.suggestions⟩

/-- `EnterpriseDabValidator.validate`: the consistency stage against
`databricks.yml`, then each discovered job file in discovery order.  The
boolean result of the source (`len(self.errors) == 0`) is recoverable from
the returned buckets. -/
def runValidate (dbLoad : Except String Yaml)
    (jobFiles : List (String × Except String Yaml)) : Except String Buckets := do
  let (consErrs, consWarns) ← validateEnvironmentConsistency dbLoad
  let b ← validateJobFiles jobFiles
  .ok ⟨consErrs ++ b.errors, consWarns ++ b.warnings, b.suggestions⟩

/-- The exit-code policy of `main`: `is_valid = len(errors) == 0`;
`sys.exit(1)` iff `not is_valid or (args.strict and validator.warnings)`,
otherwise the process ends with code 0. -/
def mainExitCode (b : Buckets) (strict : Bool) : Nat :=
  if !(b.errors.length == 0) || (strict && !b.warnings.isEmpty) then 1 else 0

end DabValidator


namespace DabValidator

/-! ## Supporting lemmas: association lists and merged key sets -/

/-- A value that is a mapping. -/
def isMapY : Yaml → Bool
  | .map _ => true
  | _ => false

/-- Whether a mapping value has key `v` (false on non-mappings). -/
def hasKey (y : Yaml) (v : String) : Bool :=
  match y with
  | .map es => (Yaml.lookup es v).isSome
  | _ => false

theorem lookup_isSome (es : List (String × Yaml)) (k : String) :
    (Yaml.lookup es k).isSome = true ↔ k ∈ es.map Prod.fst := by
  induction es with
  | nil => simp [Yaml.lookup]
  | cons e rest ih =>
      obtain ⟨k', v⟩ := e
      rw [Yaml.lookup]
      by_cases h : k' = k
      · subst h; simp
      · rw [if_neg h, ih]
        simp only [List.map_cons, List.mem_cons]
        constructor
        · exact fun hm => Or.inr hm
        · rintro (rfl | hm)
          · exact absurd rfl h
          · exact hm

theorem dictUpdate_cons (base : List (String × Yaml)) (kv : String × Yaml)
    (rest : List (String × Yaml)) :
    dictUpdate base (kv :: rest) =
      dictUpdate
        (if (Yaml.lookup base kv.1).isSome then
          base.map (fun e => if e.1 = kv.1 then (e.1, kv.2) else e)
         else base ++ [kv]) rest := rfl

theorem keys_dictUpdate (base upd : List (String × Yaml)) (k : String) :
    k ∈ (dictUpdate base upd).map Prod.fst ↔
      k ∈ base.map Prod.fst ∨ k ∈ upd.map Prod.fst := by
  induction upd generalizing base with
  | nil => simp [dictUpdate]
  | cons kv rest ih =>
      rw [dictUpdate_cons]
      by_cases h : (Yaml.lookup base kv.1).isSome = true
      · rw [if_pos h, ih]
        have hkeys : (base.map fun e => if e.1 = kv.1 then (e.1, kv.2) else e).map
            Prod.fst = base.map Prod.fst := by
          rw [List.map_map]; apply List.map_congr_left
          intro e _; by_cases he : e.1 = kv.1 <;> simp [he]
        rw [hkeys]
        have hmem : kv.1 ∈ base.map Prod.fst := (lookup_isSome base kv.1).mp h
        simp only [List.map_cons, List.mem_cons]
        constructor
        · tauto
        · rintro (h' | h' | h')
          · exact Or.inl h'
          · subst h'; exact Or.inl hmem
          · exact Or.inr h'
      · rw [if_neg h, ih]
        simp only [List.map_append, List.mem_append, List.map_cons, List.map_nil,
          List.mem_cons, List.not_mem_nil, or_false]
        tauto

theorem bindOk {α β : Type} (a : α) (f : α → Except String β) :
    (Except.ok a >>= f) = f a := rfl

theorem bindErr {α β : Type} (e : String) (f : α → Except String β) :
    (Except.error e >>= f) = Except.error e := rfl

theorem pureOk {α : Type} (a : α) : (pure a : Except String α) = Except.ok a := rfl

/-- The environments that lack variable `v`, in `env_variables` order: the
value the source builds as `missing_envs`. -/
def missingEnvsOf (envs : List (String × Yaml)) (v : String) : List String :=
  (envs.filter (fun e => !hasKey e.2 v)).map Prod.fst

/-- Whether a finding is the cross-environment warning for variable `v`. -/
def isEnvVarFindingFor (v : String) : Finding → Bool
  | .envVarMissing u _ => u = v
  | _ => false

theorem addNames_mem (ks : List String) (acc : List String) (v : String) :
    v ∈ ks.foldl (fun a k => if a.contains k then a else a ++ [k]) acc ↔
      v ∈ acc ∨ v ∈ ks := by
  induction ks generalizing acc with
  | nil => simp
  | cons k ks ih =>
      rw [List.foldl_cons]
      by_cases h : acc.contains k = true
      · have hk : k ∈ acc := by simpa using h
        rw [if_pos h, ih]
        simp only [List.mem_cons]
        constructor
        · tauto
        · rintro (h' | h' | h')
          · exact Or.inl h'
          · subst h'; exact Or.inl hk
          · exact Or.inr h'
      · rw [if_neg h, ih]
        simp [or_assoc]

theorem addNames_nodup (ks : List String) (acc : List String)
    (h : acc.Nodup) :
    (ks.foldl (fun a k => if a.contains k then a else a ++ [k]) acc).Nodup := by
  induction ks generalizing acc with
  | nil => exact h
  | cons k ks ih =>
      rw [List.foldl_cons]
      by_cases hc : acc.contains k = true
      · rw [if_pos hc]; exact ih acc h
      · rw [if_neg hc]
        refine ih _ ?_
        have hk : k ∉ acc := by simpa using hc
        simp [List.nodup_append, h, hk]

theorem collectVarNames_ok (envs : List (String × Yaml)) :
    ∀ acc names, collectVarNames envs acc = .ok names →
      (∀ e ∈ envs, isMapY e.2 = true)
      ∧ (∀ v, v ∈ names ↔ v ∈ acc ∨ ∃ e ∈ envs, hasKey e.2 v = true)
      ∧ (acc.Nodup → names.Nodup) := by
  induction envs with
  | nil =>
      intro acc names h
      obtain rfl : acc = names := by
        simpa [collectVarNames] using h
      exact ⟨by simp, by simp, fun hn => hn⟩
  | cons e rest ih =>
      intro acc names h
      obtain ⟨en, ev⟩ := e
      rcases ev with s | n | b | _ | xs | es <;>
        simp only [collectVarNames, pyItems, bindOk, bindErr,
          reduceCtorEq] at h
      case map =>
        obtain ⟨hshape, hmem, hnd⟩ := ih _ _ h
        refine ⟨?_, ?_, ?_⟩
        · intro f hf
          rcases List.mem_cons.mp hf with rfl | hf
          · rfl
          · exact hshape f hf
        · intro v
          rw [hmem v, addNames_mem]
          simp only [List.mem_cons]
          constructor
          · rintro ((h' | h') | h')
            · exact Or.inl h'
            · refine Or.inr ⟨(en, Yaml.map es), by simp, ?_⟩
              simp [hasKey, lookup_isSome, h']
            · obtain ⟨f, hf, hkey⟩ := h'
              exact Or.inr ⟨f, by simp [hf], hkey⟩
          · rintro (h' | ⟨f, hf, hkey⟩)
            · exact Or.inl (Or.inl h')
            · rcases hf with rfl | hf
              · refine Or.inl (Or.inr ?_)
                simpa [hasKey, lookup_isSome] using hkey
              · exact Or.inr ⟨f, hf, hkey⟩
        · intro hacc
          exact hnd (addNames_nodup _ _ hacc)

theorem envsMissingVar_ok (v : String) (envs : List (String × Yaml))
    (h : ∀ e ∈ envs, isMapY e.2 = true) :
    envsMissingVar v envs = .ok (missingEnvsOf envs v) := by
  induction envs with
  | nil => rfl
  | cons e rest ih =>
      obtain ⟨en, ev⟩ := e
      have hev : isMapY ev = true := h (en, ev) (by simp)
      obtain ⟨es, rfl⟩ : ∃ es, ev = Yaml.map es := by
        cases ev <;> simp [isMapY] at hev ⊢
      have ihr := ih (fun f hf => h f (List.mem_cons_of_mem _ hf))
      simp only [envsMissingVar, pyContains, bindOk, ihr, missingEnvsOf,
        List.filter_cons]
      by_cases hk : (Yaml.lookup es v).isSome = true
      · simp [hk, hasKey]
      · simp [hk, hasKey]

theorem consistencyWarnings_ok (envs : List (String × Yaml))
    (hsh : ∀ e ∈ envs, isMapY e.2 = true) :
    ∀ names, consistencyWarnings envs names =
      .ok (names.filterMap (fun v =>
        if (missingEnvsOf envs v).isEmpty then none
        else some (Finding.envVarMissing v (missingEnvsOf envs v)))) := by
  intro names
  induction names with
  | nil => rfl
  | cons v rest ih =>
      simp only [consistencyWarnings, envsMissingVar_ok v envs hsh, bindOk,
        ih, List.filterMap_cons]
      by_cases hm : (missingEnvsOf envs v).isEmpty = true
      · simp [hm, List.isEmpty_iff.mp hm]
      · simp only [hm, Bool.false_eq_true, if_false,
          List.isEmpty_eq_false_iff_exists_mem] at hm ⊢
        simp [List.isEmpty_iff] at hm
        simp [hm]

theorem extractTargets_ok (gvars : List (String × Yaml)) :
    ∀ ts envs : List (String × Yaml),
      extractTargets (.map gvars) ts = .ok envs →
      envs.length = ts.length ∧
      ∀ e ∈ envs, ∃ tvs, e.2 = Yaml.map (dictUpdate gvars tvs) := by
  intro ts
  induction ts with
  | nil =>
      intro envs h
      obtain rfl : ([] : List (String × Yaml)) = envs := by
        simpa [extractTargets] using h
      simp
  | cons t rest ih =>
      intro envs h
      obtain ⟨tn, tc⟩ := t
      rcases tc with s | n | b | _ | xs | tes <;>
        simp only [extractTargets, pyGet, bindOk, bindErr, reduceCtorEq] at h
      case map =>
        rcases htv : (Yaml.lookup tes "variables").getD (Yaml.map []) with
          s | n | b | _ | xs | tvs <;>
          rw [htv] at h <;>
          simp only [mergeVars, bindOk, bindErr, reduceCtorEq] at h
        case map =>
          cases hrest : extractTargets (Yaml.map gvars) rest with
          | error e => rw [hrest, bindErr] at h; cases h
          | ok rest' =>
              rw [hrest, bindOk] at h
              obtain rfl : (tn, Yaml.map (dictUpdate gvars tvs)) :: rest' = envs := by
                simpa using h
              obtain ⟨hlen, hsh⟩ := ih rest' hrest
              refine ⟨by simp [hlen], ?_⟩
              intro e he
              rcases List.mem_cons.mp he with rfl | he
              · exact ⟨tvs, rfl⟩
              · exact hsh e he

theorem envVar_filterMap_count (envs : List (String × Yaml)) (v : String) :
    ∀ names : List String, names.Nodup →
      ((names.filterMap (fun u =>
          if (missingEnvsOf envs u).isEmpty then none
          else some (Finding.envVarMissing u (missingEnvsOf envs u)))).filter
        (isEnvVarFindingFor v)).length =
      if names.contains v && !(missingEnvsOf envs v).isEmpty then 1 else 0 := by
  intro names
  induction names with
  | nil => simp
  | cons u rest ih =>
      intro hnd
      obtain ⟨hu, hrest⟩ := List.nodup_cons.mp hnd
      rw [List.filterMap_cons]
      by_cases hm : (missingEnvsOf envs u).isEmpty = true
      · rw [if_pos hm, ih hrest]
        by_cases huv : u = v
        · subst huv
          have : rest.contains u = false := by simpa using hu
          simp [this, hm]
        · simp [List.contains_cons, Ne.symm huv]
      · rw [if_neg hm, List.filter_cons]
        by_cases huv : u = v
        · subst huv
          have hrc : rest.contains u = false := by simpa using hu
          simp [isEnvVarFindingFor, ih hrest, hrc, hm]
          intro a x hx _ ha
          subst ha
          simp only [decide_eq_false_iff_not]
          rintro rfl
          exact hu hx
        · have hpred : isEnvVarFindingFor v
              (Finding.envVarMissing u (missingEnvsOf envs u)) = false := by
            simp [isEnvVarFindingFor, huv]
          simp only [hpred, Bool.false_eq_true, if_false]
          rw [ih hrest]
          simp [List.contains_cons, Ne.symm huv]

theorem envVar_filterMap_mem (envs : List (String × Yaml)) (v : String)
    (l : List String) :
    ∀ names : List String,
      Finding.envVarMissing v l ∈ names.filterMap (fun u =>
          if (missingEnvsOf envs u).isEmpty then none
          else some (Finding.envVarMissing u (missingEnvsOf envs u))) →
      l = missingEnvsOf envs v ∧ (missingEnvsOf envs v).isEmpty = false := by
  intro names
  induction names with
  | nil => simp
  | cons u rest ih =>
      rw [List.filterMap_cons]
      by_cases hm : (missingEnvsOf envs u).isEmpty = true
      · rw [if_pos hm]; exact ih
      · rw [if_neg hm]
        intro hmem
        rcases List.mem_cons.mp hmem with heq | hmem
        · injection heq with h₁ h₂
          subst h₁
          exact ⟨h₂, by simpa using hm⟩
        · exact ih hmem

end DabValidator

namespace DabValidator

/-! # Claims -/

/-- C1: For every run, the process exit code is 0 when there are no
accumulated errors and either no warnings or warnings without `--strict`,
and 1 when any error is present or when `--strict` is set and any warning is
present; suggestions never affect the exit code. -/
theorem exit_code_policy (b : Buckets) (strict : Bool) :
    (mainExitCode b strict = 0 ↔
      b.errors = [] ∧ (b.warnings = [] ∨ strict = false))
    ∧ (mainExitCode b strict = 1 ↔
      b.errors ≠ [] ∨ (strict = true ∧ b.warnings ≠ []))
    ∧ ∀ s, mainExitCode ⟨b.errors, b.warnings, s⟩ strict = mainExitCode b strict := by
  obtain ⟨e, w, s⟩ := b
  refine ⟨?_, ?_, fun _ => rfl⟩ <;>
    cases e <;> cases w <;> cases strict <;>
      simp [mainExitCode, List.isEmpty]

/-- C6: A file whose load fails produces exactly one error-severity finding
carrying the file path and the underlying error text, yields the empty
mapping as the parsed tree, and `validate_job_file` then runs no evaluator
on it: the load error is the only finding, and nothing is raised. -/
theorem load_failure_fail_soft (fp e : String) :
    loadYaml fp (.error e) = (Yaml.map [], [Finding.loadFailed fp e])
    ∧ validateJobFile fp (.error e) = .ok ⟨[Finding.loadFailed fp e], [], []⟩ :=
  ⟨rfl, rfl⟩

/-- C6 witness. -/
theorem load_failure_fail_soft_witness :
    loadYaml "resources/job.yml" (.error "No such file")
        = (Yaml.map [], [Finding.loadFailed "resources/job.yml" "No such file"])
    ∧ validateJobFile "resources/job.yml" (.error "No such file")
        = .ok ⟨[Finding.loadFailed "resources/job.yml" "No such file"], [], []⟩ :=
  load_failure_fail_soft "resources/job.yml" "No such file"

/-- C9 (counterexample): with `databricks.yml` absent (its read raising
`FileNotFoundError`), the consistency stage does contribute a finding: the
loader records an error, so the stage's findings are not empty as the claim
states. -/
theorem consistency_stage_absent_bundle_finds_error :
    validateEnvironmentConsistency
        (.error "[Errno 2] No such file or directory: 'databricks.yml'")
      ≠ .ok ([], []) := by
  decide

/-- C9 (amended): when reading `databricks.yml` fails, the consistency
stage contributes exactly one error-severity finding — recorded by the
loader, carrying the path and error text — and no warnings; that error
makes the whole run fail (exit code 1 whatever `--strict` is). -/
theorem consistency_stage_missing_bundle (e : String) :
    validateEnvironmentConsistency (.error e)
        = .ok ([Finding.loadFailed databricksYamlPath e], [])
    ∧ runValidate (.error e) []
        = .ok ⟨[Finding.loadFailed databricksYamlPath e], [], []⟩
    ∧ ∀ strict,
        mainExitCode ⟨[Finding.loadFailed databricksYamlPath e], [], []⟩ strict = 1 :=
  ⟨rfl, rfl, fun _ => rfl⟩

/-- C4 (code evaluated at the failing input): a document whose YAML source
is `password: "hunter2"` parses to a tree that `yaml.dump` re-serializes
WITHOUT quotes (`hunter2` is a plain scalar), so no security pattern — each
of which requires a quote after the separator — matches, and the security
evaluator emits zero findings instead of the one the claim requires. -/
theorem secret_scan_misses_quoted_password :
    yamlDump (Yaml.map [("password", Yaml.str "hunter2")])
        = "password: hunter2\n"
    ∧ checkSecurityCompliance (Yaml.map [("password", Yaml.str "hunter2")])
        "resources/job.yml" = .ok ([], [])
    ∧ validateJobFile "resources/job.yml"
        (.ok (Yaml.map [("password", Yaml.str "hunter2")]))
        = .ok ⟨[], [], []⟩ := by
  refine ⟨by decide, by decide, by decide⟩

end DabValidator

namespace DabValidator

/-- C5: The environment-consistency checker emits zero findings when fewer
than two environments are defined; with at least two, for every variable
name in the union of the environments' merged variable names, exactly one
warning-severity finding names it iff some environment lacks it, and any
such finding carries exactly the list of environments missing it. -/
theorem environment_consistency_check
    (dbLoad : Except String Yaml) (envs : List (String × Yaml))
    (loadFs le ws : List Finding)
    (hex : extractEnvironmentVariables dbLoad = .ok (envs, loadFs))
    (hok : validateEnvironmentConsistency dbLoad = .ok (le, ws)) :
    (envs.length < 2 → ws = [])
    ∧ (2 ≤ envs.length → ∀ v : String,
        ((ws.filter (isEnvVarFindingFor v)).length =
          if envs.any (fun e => hasKey e.2 v) && !(missingEnvsOf envs v).isEmpty
          then 1 else 0)
        ∧ ∀ l, Finding.envVarMissing v l ∈ ws → l = missingEnvsOf envs v) := by
  unfold validateEnvironmentConsistency at hok
  rw [hex] at hok
  simp only [bindOk, pureOk] at hok
  by_cases h₂ : envs.length < 2
  · rw [if_pos h₂] at hok
    simp only [Except.ok.injEq, Prod.mk.injEq] at hok
    obtain ⟨rfl, rfl⟩ := hok
    exact ⟨fun _ => rfl, fun hge => absurd h₂ (by omega)⟩
  · rw [if_neg h₂] at hok
    cases hcol : collectVarNames envs [] with
    | error e => rw [hcol, bindErr] at hok; cases hok
    | ok names =>
        obtain ⟨hshape, hmem, hnd⟩ := collectVarNames_ok envs [] names hcol
        rw [hcol, bindOk, consistencyWarnings_ok envs hshape names, bindOk] at hok
        simp only [Except.ok.injEq, Prod.mk.injEq] at hok
        obtain ⟨rfl, hws⟩ := hok
        subst hws
        refine ⟨fun hlt => absurd hlt h₂, fun hge v => ?_⟩
        constructor
        · rw [envVar_filterMap_count envs v names (hnd List.nodup_nil)]
          have hiff : v ∈ names ↔ ∃ e ∈ envs, hasKey e.2 v = true := by
            simpa using hmem v
          have hcv : names.contains v = envs.any (fun e => hasKey e.2 v) := by
            by_cases hv : v ∈ names
            · have h₁ : names.contains v = true := by simpa using hv
              have h₃ : envs.any (fun e => hasKey e.2 v) = true :=
                List.any_eq_true.mpr (hiff.mp hv)
              rw [h₁, h₃]
            · have h₁ : names.contains v = false := by simpa using hv
              have h₃ : envs.any (fun e => hasKey e.2 v) = false := by
                rcases hany : envs.any (fun e => hasKey e.2 v) with _ | _
                · rfl
                · exact absurd (hiff.mpr (List.any_eq_true.mp hany)) hv
              rw [h₁, h₃]
          rw [hcv]
        · intro l hl
          exact (envVar_filterMap_mem envs v l names hl).1

/-- A two-target bundle document: target `A` defines `{x, y}`, target `B`
defines `{x}`. -/
def demoDbLoad : Except String Yaml :=
  .ok (.map [("targets", .map [
    ("A", .map [("variables", .map [("x", .int 1), ("y", .int 2)])]),
    ("B", .map [("variables", .map [("x", .int 3)])])])])

/-- The environment map extracted from `demoDbLoad`. -/
def demoEnvs : List (String × Yaml) :=
  [("A", .map [("x", .int 1), ("y", .int 2)]), ("B", .map [("x", .int 3)])]

/-- C5 witness: on the two-environment bundle where `A` defines `{x, y}`
and `B` defines `{x}`, exactly one warning reports `y`, and it names
exactly `[B]`. -/
theorem environment_consistency_check_witness :
    (([Finding.envVarMissing "y" ["B"]].filter (isEnvVarFindingFor "y")).length =
      if demoEnvs.any (fun e => hasKey e.2 "y") && !(missingEnvsOf demoEnvs "y").isEmpty
      then 1 else 0)
    ∧ ([Finding.envVarMissing "y" ["B"]].filter (isEnvVarFindingFor "y")).length = 1
    ∧ missingEnvsOf demoEnvs "y" = ["B"] :=
  ⟨((environment_consistency_check demoDbLoad demoEnvs [] []
      [Finding.envVarMissing "y" ["B"]] rfl rfl).2 (by decide) "y").1,
   by decide, by decide⟩

end DabValidator

namespace DabValidator

/-- C10: when the bundle document has a non-empty `targets` mapping, every
variable name of the top-level global `variables` mapping is in every
environment's merged variable set (target-specific keys only override,
never remove), so the consistency checker never reports a globally-defined
variable as missing from any environment. -/
theorem global_variables_always_present
    (ces gvars ts : List (String × Yaml)) (le ws : List Finding) (v : String)
    (hg : Yaml.lookup ces "variables" = some (.map gvars))
    (ht : Yaml.lookup ces "targets" = some (.map ts))
    (hts : ts ≠ [])
    (hok : validateEnvironmentConsistency (.ok (.map ces)) = .ok (le, ws))
    (hv : v ∈ gvars.map Prod.fst) :
    ∀ l, Finding.envVarMissing v l ∉ ws := by
  have hces : ces ≠ [] := by
    intro h; subst h; simp [Yaml.lookup] at hg
  have htr : pyTruthy (.map ces) = true := by
    simpa [pyTruthy, List.isEmpty_iff] using hces
  have hload : loadYaml databricksYamlPath (.ok (.map ces)) = (.map ces, []) := by
    simp [loadYaml, htr]
  cases hextr : extractTargets (.map gvars) ts with
  | error e =>
      have hex : extractEnvironmentVariables (.ok (.map ces)) = .error e := by
        unfold extractEnvironmentVariables
        rw [hload]
        simp [htr, pyGet, hg, ht, pyItems, bindOk, bindErr, hextr]
      unfold validateEnvironmentConsistency at hok
      rw [hex, bindErr] at hok
      cases hok
  | ok envs =>
      obtain ⟨hlen, hshape⟩ := extractTargets_ok gvars ts envs hextr
      have hne : envs.isEmpty = false := by
        cases envs with
        | nil => cases ts with
            | nil => exact absurd rfl hts
            | cons a b => simp at hlen
        | cons a b => rfl
      have hne' : ¬(envs = [] ∧ pyTruthy (Yaml.map gvars) = true) := by
        rintro ⟨rfl, -⟩; simp at hne
      have hex : extractEnvironmentVariables (.ok (.map ces)) = .ok (envs, []) := by
        unfold extractEnvironmentVariables
        rw [hload]
        simp [htr, pyGet, hg, ht, pyItems, bindOk, hextr, hne]
        rw [if_neg hne']
        rfl
      have hall : ∀ e ∈ envs, hasKey e.2 v = true := by
        intro e he
        obtain ⟨tvs, h₂⟩ := hshape e he
        rw [h₂]
        simp only [hasKey, lookup_isSome, keys_dictUpdate]
        exact Or.inl hv
      have hmiss : missingEnvsOf envs v = [] := by
        have : envs.filter (fun e => !hasKey e.2 v) = [] := by
          rw [List.filter_eq_nil_iff]
          intro e he
          simp [hall e he]
        simp [missingEnvsOf, this]
      unfold validateEnvironmentConsistency at hok
      rw [hex] at hok
      simp only [bindOk, pureOk] at hok
      by_cases h₂ : envs.length < 2
      · rw [if_pos h₂] at hok
        simp only [Except.ok.injEq, Prod.mk.injEq] at hok
        obtain ⟨rfl, rfl⟩ := hok
        simp
      · rw [if_neg h₂] at hok
        cases hcol : collectVarNames envs [] with
        | error e => rw [hcol, bindErr] at hok; cases hok
        | ok names =>
            obtain ⟨hshapeM, hmemN, hnd⟩ := collectVarNames_ok envs [] names hcol
            rw [hcol, bindOk, consistencyWarnings_ok envs hshapeM names,
              bindOk] at hok
            simp only [Except.ok.injEq, Prod.mk.injEq] at hok
            obtain ⟨rfl, hws⟩ := hok
            subst hws
            intro l hl
            have := (envVar_filterMap_mem envs v l names hl).2
            rw [hmiss] at this
            cases this

/-- A bundle document with a global variable `g` and two targets. -/
def demoCfgGlobal : List (String × Yaml) :=
  [("variables", .map [("g", .int 1)]),
   ("targets", .map [
     ("A", .map [("variables", .map [("x", .int 1)])]),
     ("B", .map [("variables", .map [])])])]

/-- C10 witness: `g` is defined globally, so the (only) consistency warning
of the demo bundle is about `x`, never about `g`. -/
theorem global_variables_always_present_witness :
    Finding.envVarMissing "g" ["B"] ∉ [Finding.envVarMissing "x" ["B"]] :=
  global_variables_always_present demoCfgGlobal [("g", Yaml.int 1)]
    [("A", Yaml.map [("variables", Yaml.map [("x", Yaml.int 1)])]),
     ("B", Yaml.map [("variables", Yaml.map [])])]
    [] [Finding.envVarMissing "x" ["B"]] "g"
    rfl rfl (by decide) rfl (by decide) ["B"]

end DabValidator

namespace DabValidator

/-! ## Supporting lemmas: required tags -/

/-- The key set of a job's own `tags` mapping (empty when absent or not a
mapping). -/
def jobOwnTagKeys (jdef : Yaml) : List String :=
  match jdef with
  | .map des =>
      match Yaml.lookup des "tags" with
      | some (.map ts) => ts.map Prod.fst
      | _ => []
  | _ => []

/-- The job's `job_clusters` sequence (empty when absent or not a
sequence). -/
def jobClusterList (jdef : Yaml) : List Yaml :=
  match jdef with
  | .map des =>
      match Yaml.lookup des "job_clusters" with
      | some (.seq cs) => cs
      | _ => []
  | _ => []

/-- The key set of a cluster's `new_cluster.custom_tags` mapping. -/
def clusterCustomTagKeys (c : Yaml) : List String :=
  match c with
  | .map ces =>
      match Yaml.lookup ces "new_cluster" with
      | some (.map nes) =>
          match Yaml.lookup nes "custom_tags" with
          | some (.map cts) => cts.map Prod.fst
          | _ => []
      | _ => []
  | _ => []

/-- The required tag names a job is missing, as the claim describes them:
the fixed required set minus the names present in the job's own tags or any
cluster's custom tags. -/
def specMissingTags (jdef : Yaml) : List String :=
  requiredTags.filter (fun t =>
    !((jobOwnTagKeys jdef).contains t ||
      (jobClusterList jdef).any (fun c => (clusterCustomTagKeys c).contains t)))

/-- The finding list the required-tag evaluator should append for one job. -/
def specJobTagFinding (filePath : String) (n : String) (d : Yaml) : List Finding :=
  if (specMissingTags d).isEmpty then []
  else [Finding.missingTags n filePath (specMissingTags d)]

/-- The findings of the whole jobs loop, job by job. -/
def specTagFindings (filePath : String) (jobs : List (String × Yaml)) : List Finding :=
  jobs.foldr (fun e acc => specJobTagFinding filePath e.1 e.2 ++ acc) []

/-- Whether a finding is the missing-tags error for job `name`. -/
def isMissingTagsFor (name : String) : Finding → Bool
  | .missingTags n _ _ => n = name
  | _ => false

theorem clusterCustomTagsE_keys (c : Yaml) (cts : List (String × Yaml))
    (h : clusterCustomTagsE c = .ok (.map cts)) :
    clusterCustomTagKeys c = cts.map Prod.fst := by
  rcases c with s | n | b | _ | xs | ces <;>
    simp only [clusterCustomTagsE, pyGet, bindOk, bindErr, reduceCtorEq] at h
  case map =>
    rw [clusterCustomTagKeys]
    cases hnc : Yaml.lookup ces "new_cluster" with
    | none =>
        rw [hnc] at h
        simp only [Option.getD_none, pyGet, Yaml.lookup, Option.getD_some] at h
        obtain rfl : ([] : List (String × Yaml)) = cts := by simpa using h
        simp
    | some v =>
        rw [hnc] at h
        rcases v with s | n | b | _ | xs | nes <;>
          simp only [Option.getD_some, pyGet, reduceCtorEq] at h
        case map =>
          cases hct : Yaml.lookup nes "custom_tags" with
          | none =>
              rw [hct] at h
              simp only [Option.getD_none, Except.ok.injEq] at h
              obtain rfl : ([] : List (String × Yaml)) = cts := by
                simpa using h
              simp [hct]
          | some w =>
              rw [hct] at h
              simp only [Option.getD_some, Except.ok.injEq] at h
              subst h
              simp [hct]

theorem foldTags_ok (L : List Yaml) :
    ∀ (ts₀ : List (String × Yaml)) (res : Yaml),
      foldTags (.map ts₀) L = .ok res →
      ∃ tsN, res = .map tsN ∧
        ∀ t, t ∈ tsN.map Prod.fst ↔
          t ∈ ts₀.map Prod.fst ∨ ∃ c ∈ L, t ∈ clusterCustomTagKeys c := by
  induction L with
  | nil =>
      intro ts₀ res h
      obtain rfl : Yaml.map ts₀ = res := by simpa [foldTags] using h
      exact ⟨ts₀, rfl, by simp⟩
  | cons c rest ih =>
      intro ts₀ res h
      rw [foldTags] at h
      cases hct : clusterCustomTagsE c with
      | error e => rw [hct, bindErr] at h; cases h
      | ok ct =>
          rw [hct, bindOk] at h
          rcases ct with s | n | b | _ | xs | cts <;>
            simp only [updateTags, bindOk, bindErr, reduceCtorEq] at h
          case map =>
            obtain ⟨tsN, rfl, hkeys⟩ := ih (dictUpdate ts₀ cts) res h
            refine ⟨tsN, rfl, fun t => ?_⟩
            have hck : clusterCustomTagKeys c = cts.map Prod.fst :=
              clusterCustomTagsE_keys c cts hct
            rw [hkeys t, keys_dictUpdate]
            simp only [List.mem_cons, ← hck]
            constructor
            · rintro ((h' | h') | ⟨f, hf, hk⟩)
              · exact Or.inl h'
              · exact Or.inr ⟨c, Or.inl rfl, h'⟩
              · exact Or.inr ⟨f, Or.inr hf, hk⟩
            · rintro (h' | ⟨f, hf, hk⟩)
              · exact Or.inl (Or.inl h')
              · rcases hf with rfl | hf
                · exact Or.inl (Or.inr hk)
                · exact Or.inr ⟨f, hf, hk⟩

end DabValidator

namespace DabValidator

theorem foldTags_nonmap (t : Yaml) (hm : isMapY t = false) :
    ∀ L res, foldTags t L = .ok res → isMapY res = false := by
  intro L
  induction L with
  | nil =>
      intro res h
      obtain rfl : t = res := by simpa [foldTags] using h
      exact hm
  | cons c rest ih =>
      intro res h
      rw [foldTags] at h
      cases hct : clusterCustomTagsE c with
      | error e => rw [hct, bindErr] at h; cases h
      | ok ct =>
          rw [hct, bindOk] at h
          rcases t with s | n | b | _ | xs | des <;>
            simp only [updateTags, bindErr, reduceCtorEq] at h
          case map => simp [isMapY] at hm

theorem processJobTags_keys (jdef : Yaml) (ts : List (String × Yaml))
    (hok : processJobTags jdef = .ok ts) :
    ∀ t, t ∈ ts.map Prod.fst ↔
      t ∈ jobOwnTagKeys jdef ∨
        ∃ c ∈ jobClusterList jdef, t ∈ clusterCustomTagKeys c := by
  rcases jdef with s | n | b | _ | xs | des <;>
    simp only [processJobTags, pyGet, bindOk, bindErr, reduceCtorEq] at hok
  case map =>
    -- dissect the cluster list produced by `pyIterList`
    have main : ∀ L : List Yaml,
        ((foldTags ((Yaml.lookup des "tags").getD (.map [])) L) >>=
            (fun final => match final with
              | .map ts => Except.ok ts
              | _ => (.error "AttributeError" : Except String (List (String × Yaml)))))
          = .ok ts →
        ∀ t, t ∈ ts.map Prod.fst ↔
          t ∈ jobOwnTagKeys (.map des) ∨ ∃ c ∈ L, t ∈ clusterCustomTagKeys c := by
      intro L hL t
      cases hf : foldTags ((Yaml.lookup des "tags").getD (.map [])) L with
      | error e => rw [hf, bindErr] at hL; cases hL
      | ok final =>
          rw [hf, bindOk] at hL
          rcases final with s | n | b | _ | xs | fts <;> cases hL
          -- the base tags dict must be a mapping
          rcases htg : Yaml.lookup des "tags" with _ | w
          · rw [htg] at hf
            obtain ⟨tsN, heq, hkeys⟩ := foldTags_ok L [] _ hf
            injection heq with heq'
            subst heq'
            rw [hkeys t]
            simp [jobOwnTagKeys, htg]
          · rcases w with s | n | b | _ | xs | ts₀
            case map =>
              rw [htg] at hf
              obtain ⟨tsN, heq, hkeys⟩ := foldTags_ok L ts₀ _ hf
              injection heq with heq'
              subst heq'
              rw [hkeys t]
              simp [jobOwnTagKeys, htg]
            all_goals
              rw [htg] at hf
              have := foldTags_nonmap _ (by simp [isMapY]) L _ hf
              simp [isMapY] at this
    cases hjc : Yaml.lookup des "job_clusters" with
    | none =>
        rw [hjc] at hok
        simp only [Option.getD_none, pyIterList, bindOk] at hok
        intro t
        rw [main [] hok t]
        simp [jobClusterList, hjc]
    | some v =>
        rw [hjc] at hok
        rcases v with s | n | b | _ | cs | es <;>
          simp only [Option.getD_some, pyIterList, bindOk, bindErr,
            reduceCtorEq] at hok
        case seq =>
          intro t
          rw [main cs hok t]
          simp [jobClusterList, hjc]
        case str =>
          cases hchars : s.toList with
          | nil =>
              rw [hchars] at hok
              simp only [List.map_nil] at hok
              intro t
              rw [main [] hok t]
              simp [jobClusterList, hjc]
          | cons c rest =>
              rw [hchars] at hok
              simp only [List.map_cons, foldTags, clusterCustomTagsE, pyGet,
                bindErr, reduceCtorEq] at hok
        case map =>
          cases es with
          | nil =>
              simp only [List.map_nil] at hok
              intro t
              rw [main [] hok t]
              simp [jobClusterList, hjc]
          | cons e rest =>
              simp only [List.map_cons, foldTags, clusterCustomTagsE, pyGet,
                bindErr, reduceCtorEq] at hok

theorem missingOf_eq_spec (jdef : Yaml) (ts : List (String × Yaml))
    (hok : processJobTags jdef = .ok ts) :
    missingOf ts = specMissingTags jdef := by
  unfold missingOf specMissingTags
  apply List.filter_congr
  intro t ht
  have h := processJobTags_keys jdef ts hok t
  suffices hb : (ts.map Prod.fst).contains t =
      ((jobOwnTagKeys jdef).contains t ||
        (jobClusterList jdef).any fun c => (clusterCustomTagKeys c).contains t) by
    rw [hb]
  by_cases hm : t ∈ ts.map Prod.fst
  · have h₁ : (ts.map Prod.fst).contains t = true := by simpa using hm
    rw [h₁]
    rcases h.mp hm with h' | ⟨c, hc, hk⟩
    · have h₂ : (jobOwnTagKeys jdef).contains t = true := by simpa using h'
      simp only [h₂, Bool.true_or]
    · have h₂ : (jobClusterList jdef).any
          (fun c => (clusterCustomTagKeys c).contains t) = true :=
        List.any_eq_true.mpr ⟨c, hc, by simpa using hk⟩
      simp only [h₂, Bool.or_true]
  · have h₁ : (ts.map Prod.fst).contains t = false := by simpa using hm
    rw [h₁]
    have ho : (jobOwnTagKeys jdef).contains t = false := by
      rcases hx : (jobOwnTagKeys jdef).contains t with _ | _
      · rfl
      · exact absurd (h.mpr (Or.inl (by simpa using hx))) hm
    have ha : (jobClusterList jdef).any
        (fun c => (clusterCustomTagKeys c).contains t) = false := by
      rcases hx : (jobClusterList jdef).any
          (fun c => (clusterCustomTagKeys c).contains t) with _ | _
      · rfl
      · obtain ⟨c, hc, hk⟩ := List.any_eq_true.mp hx
        exact absurd (h.mpr (Or.inr ⟨c, hc, by simpa using hk⟩)) hm
    simp only [ho, ha, Bool.or_false]

end DabValidator

namespace DabValidator

theorem checkRequiredTagsJobs_findings (fp : String) :
    ∀ jobs fs jobs', checkRequiredTagsJobs fp jobs = .ok (fs, jobs') →
      fs = specTagFindings fp jobs := by
  intro jobs
  induction jobs with
  | nil =>
      intro fs jobs' h
      simp only [checkRequiredTagsJobs, Except.ok.injEq, Prod.mk.injEq] at h
      obtain ⟨rfl, -⟩ := h
      rfl
  | cons e rest ih =>
      intro fs jobs' h
      obtain ⟨n, d⟩ := e
      rw [checkRequiredTagsJobs] at h
      cases hpj : checkRequiredTagsJob n d fp with
      | error e => rw [hpj, bindErr] at h; cases h
      | ok p =>
          obtain ⟨fs₁, d'⟩ := p
          rw [hpj] at h
          simp only [bindOk] at h
          cases hrest : checkRequiredTagsJobs fp rest with
          | error e => rw [hrest, bindErr] at h; cases h
          | ok q =>
              obtain ⟨fs₂, rest'⟩ := q
              rw [hrest] at h
              simp only [bindOk, Except.ok.injEq, Prod.mk.injEq] at h
              obtain ⟨⟨rfl, -⟩, -⟩ := h
              cases hts : processJobTags d with
              | error e => rw [checkRequiredTagsJob, hts, bindErr] at hpj; cases hpj
              | ok ts =>
                  rw [checkRequiredTagsJob, hts, bindOk] at hpj
                  simp only [Except.ok.injEq, Prod.mk.injEq] at hpj
                  obtain ⟨hfs₁, -⟩ := hpj
                  rw [show specTagFindings fp ((n, d) :: rest)
                      = specJobTagFinding fp n d ++ specTagFindings fp rest from rfl]
                  rw [← ih fs₂ rest' hrest, ← hfs₁, specJobTagFinding,
                    missingOf_eq_spec d ts hts]

theorem specTagFindings_filter_not_mem (fp name : String) :
    ∀ jobs : List (String × Yaml), name ∉ jobs.map Prod.fst →
      (specTagFindings fp jobs).filter (isMissingTagsFor name) = [] := by
  intro jobs
  induction jobs with
  | nil => intro _; rfl
  | cons e rest ih =>
      intro hn
      obtain ⟨n, d⟩ := e
      simp only [List.map_cons, List.mem_cons, not_or] at hn
      obtain ⟨hne, hn⟩ := hn
      rw [show specTagFindings fp ((n, d) :: rest)
          = specJobTagFinding fp n d ++ specTagFindings fp rest from rfl,
        List.filter_append, ih hn]
      by_cases hmiss : (specMissingTags d).isEmpty = true
      · simp [specJobTagFinding, hmiss]
      · simp [specJobTagFinding, hmiss, isMissingTagsFor, Ne.symm hne]

theorem specTagFindings_filter (fp name : String) (jdef : Yaml) :
    ∀ jobs : List (String × Yaml), (jobs.map Prod.fst).Nodup →
      (name, jdef) ∈ jobs →
      (specTagFindings fp jobs).filter (isMissingTagsFor name)
        = specJobTagFinding fp name jdef := by
  intro jobs
  induction jobs with
  | nil => intro _ hmem; cases hmem
  | cons e rest ih =>
      intro hnd hmem
      obtain ⟨n, d⟩ := e
      simp only [List.map_cons, List.nodup_cons] at hnd
      obtain ⟨hn, hrest⟩ := hnd
      rw [show specTagFindings fp ((n, d) :: rest)
          = specJobTagFinding fp n d ++ specTagFindings fp rest from rfl,
        List.filter_append]
      rcases List.mem_cons.mp hmem with heq | hmem
      · injection heq with h₁ h₂
        subst h₁
        subst h₂
        rw [specTagFindings_filter_not_mem fp name rest hn]
        have hfilt : (specJobTagFinding fp name jdef).filter
            (isMissingTagsFor name) = specJobTagFinding fp name jdef := by
          by_cases hmiss : (specMissingTags jdef).isEmpty = true
          · simp [specJobTagFinding, hmiss]
          · simp [specJobTagFinding, hmiss, isMissingTagsFor]
        rw [hfilt, List.append_nil]
      · have hname : name ∈ rest.map Prod.fst :=
          List.mem_map.mpr ⟨(name, jdef), hmem, rfl⟩
        have hne : n ≠ name := fun h => hn (h ▸ hname)
        have hhead : (specJobTagFinding fp n d).filter
            (isMissingTagsFor name) = [] := by
          by_cases hmiss : (specMissingTags d).isEmpty = true
          · simp [specJobTagFinding, hmiss]
          · simp [specJobTagFinding, hmiss, isMissingTagsFor, hne]
        rw [hhead, ih hrest hmem, List.nil_append]

end DabValidator

namespace DabValidator

/-- C2: for every job under `resources.jobs`, with the job's own tags
merged with all `job_clusters[*].new_cluster.custom_tags` (later wins, so
the present names are exactly the union of the key sets), the required-tag
evaluator appends exactly one error finding for that job listing precisely
the missing subset of `{cost_center, environment, team}` when it is
non-empty, and none when it is empty. -/
theorem required_tags_per_job
    (cfg : Yaml) (fp : String) (fs : List Finding) (cfg' r jy : Yaml)
    (jobs : List (String × Yaml)) (name : String) (jdef : Yaml)
    (hr : pyGet cfg "resources" (.map []) = .ok r)
    (hj : pyGet r "jobs" (.map []) = .ok jy)
    (hjy : jy = .map jobs)
    (hnd : (jobs.map Prod.fst).Nodup)
    (hmem : (name, jdef) ∈ jobs)
    (hok : checkRequiredTags cfg fp = .ok (fs, cfg')) :
    (fs.filter (isMissingTagsFor name) =
      if (specMissingTags jdef).isEmpty then []
      else [Finding.missingTags name fp (specMissingTags jdef)])
    ∧ (∀ t, t ∈ specMissingTags jdef ↔
        t ∈ requiredTags ∧
          ¬(t ∈ jobOwnTagKeys jdef ∨
            ∃ c ∈ jobClusterList jdef, t ∈ clusterCustomTagKeys c)) := by
  subst hjy
  unfold checkRequiredTags at hok
  rw [hr, bindOk, hj, bindOk] at hok
  simp only [pyItems, bindOk] at hok
  cases hjl : checkRequiredTagsJobs fp jobs with
  | error e => rw [hjl, bindErr] at hok; cases hok
  | ok p =>
      obtain ⟨fs₀, jobs'⟩ := p
      rw [hjl] at hok
      simp only [bindOk, Except.ok.injEq, Prod.mk.injEq] at hok
      obtain ⟨rfl, -⟩ := hok
      constructor
      · rw [checkRequiredTagsJobs_findings fp jobs fs₀ jobs' hjl,
          specTagFindings_filter fp name jdef jobs hnd hmem, specJobTagFinding]
      · intro t
        simp only [specMissingTags, List.mem_filter, Bool.not_eq_eq_eq_not,
          Bool.not_true, Bool.or_eq_false_iff, List.any_eq_false]
        constructor
        · rintro ⟨h₁, h₂, h₃⟩
          refine ⟨h₁, ?_⟩
          rintro (hk | ⟨c, hc, hk⟩)
          · exact (show t ∉ jobOwnTagKeys jdef by simpa using h₂) hk
          · exact (h₃ c hc) (by simpa using hk)
        · rintro ⟨h₁, h₂⟩
          refine ⟨h₁, ?_, ?_⟩
          · have hn : t ∉ jobOwnTagKeys jdef := fun hk => h₂ (Or.inl hk)
            simpa using hn
          · intro c hc
            have hn : t ∉ clusterCustomTagKeys c :=
              fun hk => h₂ (Or.inr ⟨c, hc, hk⟩)
            simpa using hn

end DabValidator

namespace DabValidator

/-! ## Supporting lemmas: the in-place tags mutation (value level) -/

/-- A job's own `tags` entries (empty when absent or not a mapping). -/
def jobOwnTags (jdef : Yaml) : List (String × Yaml) :=
  match jdef with
  | .map des =>
      match Yaml.lookup des "tags" with
      | some (.map ts) => ts
      | _ => []
  | _ => []

/-- A cluster's `new_cluster.custom_tags` entries. -/
def clusterCustomTags (c : Yaml) : List (String × Yaml) :=
  match c with
  | .map ces =>
      match Yaml.lookup ces "new_cluster" with
      | some (.map nes) =>
          match Yaml.lookup nes "custom_tags" with
          | some (.map cts) => cts
          | _ => []
      | _ => []
  | _ => []

/-- The merge the spec describes: the job's own tags overlaid, cluster by
cluster, with each cluster's custom tags (later wins). -/
def specMergedTags (jdef : Yaml) : List (String × Yaml) :=
  (jobClusterList jdef).foldl
    (fun acc c => dictUpdate acc (clusterCustomTags c)) (jobOwnTags jdef)

/-- One job definition as the required-tag check leaves it: an existing
`tags` mapping is replaced (in place) by the merge; a job without a `tags`
entry is unchanged. -/
def specRetagJob (jdef : Yaml) : Yaml :=
  match jdef with
  | .map des =>
      match Yaml.lookup des "tags" with
      | some _ => .map (setValue des "tags" (.map (specMergedTags jdef)))
      | none => jdef
  | _ => jdef

/-- The whole tree as the required-tag check leaves it: each job under
`resources.jobs` retagged, everything else unchanged. -/
def specRetagged (cfg : Yaml) : Yaml :=
  match cfg with
  | .map ces =>
      match Yaml.lookup ces "resources" with
      | some (.map res) =>
          match Yaml.lookup res "jobs" with
          | some (.map jobs) =>
              .map (setValue ces "resources"
                (.map (setValue res "jobs"
                  (.map (jobs.map (fun e => (e.1, specRetagJob e.2)))))))
          | _ => cfg
      | _ => cfg
  | _ => cfg

theorem clusterCustomTagsE_val (c : Yaml) (cts : List (String × Yaml))
    (h : clusterCustomTagsE c = .ok (.map cts)) :
    clusterCustomTags c = cts := by
  rcases c with s | n | b | _ | xs | ces <;>
    simp only [clusterCustomTagsE, pyGet, bindOk, bindErr, reduceCtorEq] at h
  case map =>
    rw [clusterCustomTags]
    cases hnc : Yaml.lookup ces "new_cluster" with
    | none =>
        rw [hnc] at h
        simp only [Option.getD_none, pyGet, Yaml.lookup, Option.getD_some] at h
        obtain rfl : ([] : List (String × Yaml)) = cts := by simpa using h
        rfl
    | some v =>
        rw [hnc] at h
        rcases v with s | n | b | _ | xs | nes <;>
          simp only [Option.getD_some, pyGet, reduceCtorEq] at h
        case map =>
          cases hct : Yaml.lookup nes "custom_tags" with
          | none =>
              rw [hct] at h
              simp only [Option.getD_none, Except.ok.injEq] at h
              obtain rfl : ([] : List (String × Yaml)) = cts := by
                simpa using h
              simp [hct]
          | some w =>
              rw [hct] at h
              simp only [Option.getD_some, Except.ok.injEq] at h
              subst h
              simp [hct]

theorem foldTags_val (L : List Yaml) :
    ∀ (ts₀ : List (String × Yaml)) (res : Yaml),
      foldTags (.map ts₀) L = .ok res →
      res = .map (L.foldl (fun acc c => dictUpdate acc (clusterCustomTags c)) ts₀) := by
  induction L with
  | nil =>
      intro ts₀ res h
      obtain rfl : Yaml.map ts₀ = res := by simpa [foldTags] using h
      rfl
  | cons c rest ih =>
      intro ts₀ res h
      rw [foldTags] at h
      cases hct : clusterCustomTagsE c with
      | error e => rw [hct, bindErr] at h; cases h
      | ok ct =>
          rw [hct, bindOk] at h
          rcases ct with s | n | b | _ | xs | cts <;>
            simp only [updateTags, bindOk, bindErr, reduceCtorEq] at h
          case map =>
            rw [List.foldl_cons, clusterCustomTagsE_val c cts hct]
            exact ih (dictUpdate ts₀ cts) res h

theorem processJobTags_val (jdef : Yaml) (ts : List (String × Yaml))
    (hok : processJobTags jdef = .ok ts) :
    ts = specMergedTags jdef := by
  rcases jdef with s | n | b | _ | xs | des <;>
    simp only [processJobTags, pyGet, bindOk, bindErr, reduceCtorEq] at hok
  case map =>
    have main : ∀ L : List Yaml,
        ((foldTags ((Yaml.lookup des "tags").getD (.map [])) L) >>=
            (fun final => match final with
              | .map ts => Except.ok ts
              | _ => (.error "AttributeError" : Except String (List (String × Yaml)))))
          = .ok ts →
        ts = L.foldl (fun acc c => dictUpdate acc (clusterCustomTags c))
              (jobOwnTags (.map des)) := by
      intro L hL
      cases hf : foldTags ((Yaml.lookup des "tags").getD (.map [])) L with
      | error e => rw [hf, bindErr] at hL; cases hL
      | ok final =>
          rw [hf, bindOk] at hL
          rcases final with s | n | b | _ | xs | fts <;> cases hL
          rcases htg : Yaml.lookup des "tags" with _ | w
          · rw [htg] at hf
            have := foldTags_val L [] _ hf
            injection this with this'
            rw [this']
            simp [jobOwnTags, htg]
          · rcases w with s | n | b | _ | xs | ts₀
            case map =>
              rw [htg] at hf
              have := foldTags_val L ts₀ _ hf
              injection this with this'
              rw [this']
              simp [jobOwnTags, htg]
            all_goals
              rw [htg] at hf
              have := foldTags_nonmap _ (by simp [isMapY]) L _ hf
              simp [isMapY] at this
    cases hjc : Yaml.lookup des "job_clusters" with
    | none =>
        rw [hjc] at hok
        simp only [Option.getD_none, pyIterList, bindOk] at hok
        rw [main [] hok]
        simp [specMergedTags, jobClusterList, hjc]
    | some v =>
        rw [hjc] at hok
        rcases v with s | n | b | _ | cs | es <;>
          simp only [Option.getD_some, pyIterList, bindOk, bindErr,
            reduceCtorEq] at hok
        case seq =>
          rw [main cs hok]
          simp [specMergedTags, jobClusterList, hjc]
        case str =>
          cases hchars : s.toList with
          | nil =>
              rw [hchars] at hok
              simp only [List.map_nil] at hok
              rw [main [] hok]
              simp [specMergedTags, jobClusterList, hjc]
          | cons c rest =>
              rw [hchars] at hok
              simp only [List.map_cons, foldTags, clusterCustomTagsE, pyGet,
                bindErr, reduceCtorEq] at hok
        case map =>
          cases es with
          | nil =>
              simp only [List.map_nil] at hok
              rw [main [] hok]
              simp [specMergedTags, jobClusterList, hjc]
          | cons e rest =>
              simp only [List.map_cons, foldTags, clusterCustomTagsE, pyGet,
                bindErr, reduceCtorEq] at hok

theorem checkRequiredTagsJob_tree (n : String) (d : Yaml) (fp : String)
    (fs₁ : List Finding) (d' : Yaml)
    (h : checkRequiredTagsJob n d fp = .ok (fs₁, d')) :
    d' = specRetagJob d := by
  cases hts : processJobTags d with
  | error e => rw [checkRequiredTagsJob, hts, bindErr] at h; cases h
  | ok ts =>
      rw [checkRequiredTagsJob, hts, bindOk] at h
      simp only [Except.ok.injEq, Prod.mk.injEq] at h
      obtain ⟨-, hd'⟩ := h
      cases d with
      | str s => simp only [processJobTags, pyGet, bindErr, reduceCtorEq] at hts
      | int nn => simp only [processJobTags, pyGet, bindErr, reduceCtorEq] at hts
      | bool b => simp only [processJobTags, pyGet, bindErr, reduceCtorEq] at hts
      | null => simp only [processJobTags, pyGet, bindErr, reduceCtorEq] at hts
      | seq xs => simp only [processJobTags, pyGet, bindErr, reduceCtorEq] at hts
      | map des =>
        have hd₂ : (if (Yaml.lookup des "tags").isSome = true then
            Yaml.map (setValue des "tags" (Yaml.map ts)) else Yaml.map des) = d' :=
          hd'
        rw [specRetagJob]
        cases htg : Yaml.lookup des "tags" with
        | none =>
            rw [htg] at hd₂
            simpa using hd₂.symm
        | some w =>
            rw [htg] at hd₂
            simp only [Option.isSome_some, if_true] at hd₂
            rw [← hd₂, processJobTags_val (.map des) ts hts]

theorem checkRequiredTagsJobs_tree (fp : String) :
    ∀ jobs fs jobs', checkRequiredTagsJobs fp jobs = .ok (fs, jobs') →
      jobs' = jobs.map (fun e => (e.1, specRetagJob e.2)) := by
  intro jobs
  induction jobs with
  | nil =>
      intro fs jobs' h
      simp only [checkRequiredTagsJobs, Except.ok.injEq, Prod.mk.injEq] at h
      obtain ⟨-, rfl⟩ := h
      rfl
  | cons e rest ih =>
      intro fs jobs' h
      obtain ⟨n, d⟩ := e
      rw [checkRequiredTagsJobs] at h
      cases hpj : checkRequiredTagsJob n d fp with
      | error e => rw [hpj, bindErr] at h; cases h
      | ok p =>
          obtain ⟨fs₁, d'⟩ := p
          rw [hpj] at h
          simp only [bindOk] at h
          cases hrest : checkRequiredTagsJobs fp rest with
          | error e => rw [hrest, bindErr] at h; cases h
          | ok q =>
              obtain ⟨fs₂, rest'⟩ := q
              rw [hrest] at h
              simp only [bindOk, Except.ok.injEq, Prod.mk.injEq] at h
              obtain ⟨-, rfl⟩ := h
              rw [List.map_cons]
              rw [checkRequiredTagsJob_tree n d fp fs₁ d' hpj,
                ih fs₂ rest' hrest]

end DabValidator

namespace DabValidator

theorem checkRequiredTags_tree (cfg : Yaml) (fp : String) (fs : List Finding)
    (cfg' : Yaml) (hok : checkRequiredTags cfg fp = .ok (fs, cfg')) :
    cfg' = specRetagged cfg := by
  cases cfg with
  | str s => simp only [checkRequiredTags, pyGet, bindErr, reduceCtorEq] at hok
  | int n => simp only [checkRequiredTags, pyGet, bindErr, reduceCtorEq] at hok
  | bool b => simp only [checkRequiredTags, pyGet, bindErr, reduceCtorEq] at hok
  | null => simp only [checkRequiredTags, pyGet, bindErr, reduceCtorEq] at hok
  | seq xs => simp only [checkRequiredTags, pyGet, bindErr, reduceCtorEq] at hok
  | map ces =>
      rw [checkRequiredTags] at hok
      simp only [pyGet, bindOk] at hok
      cases hres : Yaml.lookup ces "resources" with
      | none =>
          rw [hres] at hok
          simp only [Option.getD_none, pyGet, Yaml.lookup, Option.getD_some,
            bindOk, pyItems, checkRequiredTagsJobs, Except.ok.injEq,
            Prod.mk.injEq] at hok
          obtain ⟨-, rfl⟩ := hok
          simp [replaceJobs, specRetagged, hres]
      | some r =>
          rw [hres] at hok
          cases r with
          | map res =>
              simp only [Option.getD_some, pyGet, bindOk] at hok
              cases hjobs : Yaml.lookup res "jobs" with
              | none =>
                  rw [hjobs] at hok
                  simp only [Option.getD_none, pyItems, bindOk,
                    checkRequiredTagsJobs, Except.ok.injEq,
                    Prod.mk.injEq] at hok
                  obtain ⟨-, rfl⟩ := hok
                  simp [replaceJobs, specRetagged, hres, hjobs]
              | some jy =>
                  rw [hjobs] at hok
                  cases jy with
                  | map jobs =>
                      simp only [Option.getD_some, pyItems, bindOk] at hok
                      cases hjl : checkRequiredTagsJobs fp jobs with
                      | error e => rw [hjl, bindErr] at hok; cases hok
                      | ok p =>
                          obtain ⟨fs₀, jobs'⟩ := p
                          rw [hjl] at hok
                          simp only [bindOk, Except.ok.injEq,
                            Prod.mk.injEq] at hok
                          obtain ⟨-, rfl⟩ := hok
                          rw [checkRequiredTagsJobs_tree fp jobs fs₀ jobs' hjl]
                          simp [replaceJobs, specRetagged, hres, hjobs]
                  | str s => simp only [Option.getD_some, pyItems, bindErr,
                      reduceCtorEq] at hok
                  | int n => simp only [Option.getD_some, pyItems, bindErr,
                      reduceCtorEq] at hok
                  | bool b => simp only [Option.getD_some, pyItems, bindErr,
                      reduceCtorEq] at hok
                  | null => simp only [Option.getD_some, pyItems, bindErr,
                      reduceCtorEq] at hok
                  | seq xs => simp only [Option.getD_some, pyItems, bindErr,
                      reduceCtorEq] at hok
          | str s => simp only [Option.getD_some, pyGet, bindErr,
              reduceCtorEq] at hok
          | int n => simp only [Option.getD_some, pyGet, bindErr,
              reduceCtorEq] at hok
          | bool b => simp only [Option.getD_some, pyGet, bindErr,
              reduceCtorEq] at hok
          | null => simp only [Option.getD_some, pyGet, bindErr,
              reduceCtorEq] at hok
          | seq xs => simp only [Option.getD_some, pyGet, bindErr,
              reduceCtorEq] at hok

/-- C8 (amended): the tree the required-tag check leaves behind is exactly
the source tree with each job's existing `tags` mapping replaced, in place,
by the merge of that mapping with all cluster custom tags; jobs without a
`tags` entry — and every other part of the tree — are unchanged.  The other
five evaluators read the tree without modifying it (they are modelled as
pure functions of it, as the source only calls read accessors). -/
theorem required_tags_mutation (cfg : Yaml) (fp : String) (fs : List Finding)
    (cfg' : Yaml) (hok : checkRequiredTags cfg fp = .ok (fs, cfg')) :
    cfg' = specRetagged cfg :=
  checkRequiredTags_tree cfg fp fs cfg' hok

/-- A job with an existing tags mapping and one cluster carrying a custom
tag. -/
def demoTagJob : Yaml :=
  .map [("tags", .map [("team", .str "a")]),
        ("job_clusters", .seq [.map [("new_cluster",
          .map [("custom_tags", .map [("cost_center", .str "cc")])])]])]

/-- A one-job configuration exercising the tag merge. -/
def demoTagCfg : Yaml :=
  .map [("resources", .map [("jobs", .map [("J", demoTagJob)])])]

/-- `demoTagJob` as the required-tag check leaves it: the cluster's
`cost_center` has been merged into the job's own tags mapping. -/
def demoTagJobAfter : Yaml :=
  .map [("tags", .map [("team", .str "a"), ("cost_center", .str "cc")]),
        ("job_clusters", .seq [.map [("new_cluster",
          .map [("custom_tags", .map [("cost_center", .str "cc")])])]])]

/-- `demoTagCfg` after the required-tag check. -/
def demoTagCfgAfter : Yaml :=
  .map [("resources", .map [("jobs", .map [("J", demoTagJobAfter)])])]

/-- C2 witness: the demo job (own tag `team`, cluster custom tag
`cost_center`) gets exactly one error finding listing exactly
`[environment]`. -/
theorem required_tags_per_job_witness :
    (([Finding.missingTags "J" "f.yml" ["environment"]].filter
        (isMissingTagsFor "J")) =
      if (specMissingTags demoTagJob).isEmpty then []
      else [Finding.missingTags "J" "f.yml" (specMissingTags demoTagJob)])
    ∧ specMissingTags demoTagJob = ["environment"] :=
  ⟨(required_tags_per_job demoTagCfg "f.yml"
      [Finding.missingTags "J" "f.yml" ["environment"]] demoTagCfgAfter
      (Yaml.map [("jobs", Yaml.map [("J", demoTagJob)])])
      (Yaml.map [("J", demoTagJob)]) [("J", demoTagJob)] "J" demoTagJob
      rfl rfl rfl (by decide) (by simp) rfl).1,
   by decide⟩

/-- C8 (counterexample): the required-tag check does modify the parsed
tree: on the demo configuration the job's tags mapping gains the cluster's
`cost_center` entry, so the tree the downstream evaluators see differs from
the loaded one. -/
theorem required_tags_check_mutates_tree :
    checkRequiredTags demoTagCfg "f.yml"
        = .ok ([Finding.missingTags "J" "f.yml" ["environment"]],
               demoTagCfgAfter)
    ∧ demoTagCfgAfter ≠ demoTagCfg := by
  refine ⟨rfl, by decide⟩

/-- C8 witness: the mutated demo tree is exactly the spec-side retagging of
the original. -/
theorem required_tags_mutation_witness :
    demoTagCfgAfter = specRetagged demoTagCfg :=
  required_tags_mutation demoTagCfg "f.yml"
    [Finding.missingTags "J" "f.yml" ["environment"]] demoTagCfgAfter rfl

end DabValidator

namespace DabValidator

/-! ## Supporting definitions and lemmas: well-shaped configurations

`wellShapedConfig` is the decidable shape discipline the evaluators assume:
every position the source reads with `.get`/`.items()`/iteration has the
type the source expects (mappings where mappings are expected, sequences of
mappings for `job_clusters`/`tasks`, a string or absent `job_cluster_key`
and `notebook_path`, an integer or boolean `max_concurrent_runs`). -/

/-- Shape discipline for one entry of `job_clusters`. -/
def wellShapedCluster : Yaml → Bool
  | .map ces =>
      (match Yaml.lookup ces "job_cluster_key" with
        | some (.str _) => true
        | some _ => false
        | none => true) &&
      (match Yaml.lookup ces "new_cluster" with
        | some (.map nes) =>
            (match Yaml.lookup nes "custom_tags" with
              | some (.map _) => true
              | some _ => false
              | none => true)
        | some _ => false
        | none => true)
  | _ => false

/-- Shape discipline for one entry of `tasks`. -/
def wellShapedTask : Yaml → Bool
  | .map tes =>
      (match Yaml.lookup tes "notebook_task" with
        | some (.map nes) =>
            (match Yaml.lookup nes "notebook_path" with
              | some (.str _) => true
              | some _ => false
              | none => true)
        | some _ => false
        | none => true)
  | _ => false

/-- Shape discipline for one job definition. -/
def wellShapedJob : Yaml → Bool
  | .map jes =>
      (match Yaml.lookup jes "tags" with
        | some (.map _) => true
        | some _ => false
        | none => true) &&
      (match Yaml.lookup jes "job_clusters" with
        | some (.seq cs) => cs.all wellShapedCluster
        | some _ => false
        | none => true) &&
      (match Yaml.lookup jes "tasks" with
        | some (.seq tsk) => tsk.all wellShapedTask
        | some _ => false
        | none => true) &&
      (match Yaml.lookup jes "max_concurrent_runs" with
        | some (.int _) => true
        | some (.bool _) => true
        | some _ => false
        | none => true) &&
      (match Yaml.lookup jes "email_notifications" with
        | some (.map _) => true
        | some _ => false
        | none => true)
  | _ => false

/-- Shape discipline for a whole loaded configuration tree. -/
def wellShapedConfig : Yaml → Bool
  | .map ces =>
      (match Yaml.lookup ces "resources" with
        | some (.map res) =>
            (match Yaml.lookup res "jobs" with
              | some (.map jes) => jes.all (fun e => wellShapedJob e.2)
              | some _ => false
              | none => true)
        | some _ => false
        | none => true)
  | _ => false

theorem lookup_setValue (es : List (String × Yaml)) (k : String) (v : Yaml)
    (k' : String) :
    Yaml.lookup (setValue es k v) k' =
      if k' = k then (Yaml.lookup es k).map (fun _ => v)
      else Yaml.lookup es k' := by
  induction es with
  | nil => simp [setValue, Yaml.lookup]
  | cons e rest ih =>
      obtain ⟨ek, ev⟩ := e
      rw [show setValue ((ek, ev) :: rest) k v
          = (if ek = k then (ek, v) else (ek, ev)) :: setValue rest k v from rfl]
      by_cases hek : ek = k
      · rw [if_pos hek]
        subst hek
        by_cases hk' : k' = ek
        · subst hk'
          simp [Yaml.lookup]
        · simp [Yaml.lookup, Ne.symm hk', hk', ih]
      · rw [if_neg hek]
        by_cases hk' : k' = ek
        · subst hk'
          simp [Yaml.lookup, hek]
        · simp [Yaml.lookup, Ne.symm hk', hk', ih, hek]

end DabValidator

namespace DabValidator

theorem optionSplit {α : Type} (o : Option α) : o = none ∨ ∃ w, o = some w := by
  cases o
  · exact Or.inl rfl
  · exact Or.inr ⟨_, rfl⟩

theorem wellShapedJob_retag (d : Yaml) (h : wellShapedJob d = true) :
    wellShapedJob (specRetagJob d) = true := by
  rcases d with s | n | b | _ | xs | des
  case map =>
    rw [specRetagJob]
    obtain htg | ⟨w, htg⟩ := optionSplit (Yaml.lookup des "tags")
    · rw [htg]
      exact h
    · rw [htg]
      simp only [wellShapedJob, Bool.and_eq_true] at h
      obtain ⟨⟨⟨⟨h₁, h₂⟩, h₃⟩, h₄⟩, h₅⟩ := h
      simp only [wellShapedJob, Bool.and_eq_true]
      have e₂ : ∀ k', k' ≠ "tags" →
          Yaml.lookup (setValue des "tags"
            (Yaml.map (specMergedTags (Yaml.map des)))) k'
            = Yaml.lookup des k' := fun k' hk => by
        rw [lookup_setValue, if_neg hk]
      have e₁ : Yaml.lookup (setValue des "tags"
            (Yaml.map (specMergedTags (Yaml.map des)))) "tags"
          = some (Yaml.map (specMergedTags (Yaml.map des))) := by
        rw [lookup_setValue, if_pos rfl, htg]
        rfl
      rw [e₁, e₂ "job_clusters" (by decide), e₂ "tasks" (by decide),
        e₂ "max_concurrent_runs" (by decide),
        e₂ "email_notifications" (by decide)]
      exact ⟨⟨⟨⟨rfl, h₂⟩, h₃⟩, h₄⟩, h₅⟩
  all_goals simp [wellShapedJob] at h

theorem wellShapedConfig_retag (cfg : Yaml) (h : wellShapedConfig cfg = true) :
    wellShapedConfig (specRetagged cfg) = true := by
  rcases cfg with s | n | b | _ | xs | ces
  case map =>
    cases hres : Yaml.lookup ces "resources" with
    | none => simpa [specRetagged, hres] using h
    | some r =>
        rcases r with s | n | b | _ | xs | res
        case map =>
          cases hjobs : Yaml.lookup res "jobs" with
          | none => simpa [specRetagged, hres, hjobs] using h
          | some jy =>
              rcases jy with s | n | b | _ | xs | jobs
              case map =>
                have h' : (jobs.all fun e => wellShapedJob e.2) = true := by
                  simpa [wellShapedConfig, hres, hjobs] using h
                simp only [specRetagged, hres, hjobs]
                have e₁ : Yaml.lookup (setValue ces "resources"
                      (Yaml.map (setValue res "jobs"
                        (Yaml.map (jobs.map (fun e => (e.1, specRetagJob e.2)))))))
                      "resources"
                    = some (Yaml.map (setValue res "jobs"
                        (Yaml.map (jobs.map (fun e => (e.1, specRetagJob e.2)))))) := by
                  rw [lookup_setValue, if_pos rfl, hres]
                  rfl
                have e₂ : Yaml.lookup (setValue res "jobs"
                      (Yaml.map (jobs.map (fun e => (e.1, specRetagJob e.2)))))
                      "jobs"
                    = some (Yaml.map (jobs.map (fun e => (e.1, specRetagJob e.2)))) := by
                  rw [lookup_setValue, if_pos rfl, hjobs]
                  rfl
                simp only [wellShapedConfig, e₁, e₂]
                rw [List.all_eq_true] at h' ⊢
                intro e he
                obtain ⟨e₀, he₀, rfl⟩ := List.mem_map.mp he
                exact wellShapedJob_retag e₀.2 (h' e₀ he₀)
              all_goals simpa [specRetagged, hres, hjobs] using h
        all_goals simpa [specRetagged, hres] using h
  all_goals simp [wellShapedConfig] at h

theorem ws_clusterCustomTagsE (c : Yaml) (h : wellShapedCluster c = true) :
    ∃ cts, clusterCustomTagsE c = .ok (.map cts) := by
  rcases c with s | n | b | _ | xs | ces
  case map =>
    simp only [wellShapedCluster, Bool.and_eq_true] at h
    obtain ⟨-, h₂⟩ := h
    rw [clusterCustomTagsE]
    cases hnc : Yaml.lookup ces "new_cluster" with
    | none =>
        refine ⟨[], ?_⟩
        simp [pyGet, hnc, bindOk, Yaml.lookup]
    | some v =>
        rw [hnc] at h₂
        rcases v with s | n | b | _ | xs | nes
        case map =>
          have h₂' : (match Yaml.lookup nes "custom_tags" with
              | some (.map _) => true
              | some _ => false
              | none => true) = true := h₂
          cases hct : Yaml.lookup nes "custom_tags" with
          | none =>
              refine ⟨[], ?_⟩
              simp [pyGet, hnc, bindOk, hct]
          | some w =>
              rw [hct] at h₂'
              rcases w with s | n | b | _ | xs | cts
              case map =>
                refine ⟨cts, ?_⟩
                simp [pyGet, hnc, bindOk, hct]
              all_goals simp at h₂'
        all_goals simp at h₂
  all_goals simp [wellShapedCluster] at h

theorem ws_foldTags (cs : List Yaml) :
    ∀ ts₀ : List (String × Yaml), cs.all wellShapedCluster = true →
      ∃ tsN, foldTags (.map ts₀) cs = .ok (.map tsN) := by
  induction cs with
  | nil => intro ts₀ _; exact ⟨ts₀, rfl⟩
  | cons c rest ih =>
      intro ts₀ hall
      simp only [List.all_cons, Bool.and_eq_true] at hall
      obtain ⟨hc, hrest⟩ := hall
      obtain ⟨cts, hcts⟩ := ws_clusterCustomTagsE c hc
      obtain ⟨tsN, htsN⟩ := ih (dictUpdate ts₀ cts) hrest
      refine ⟨tsN, ?_⟩
      rw [foldTags, hcts, bindOk]
      rw [show updateTags (Yaml.map ts₀) (Yaml.map cts)
          = .ok (.map (dictUpdate ts₀ cts)) from rfl, bindOk]
      exact htsN

theorem ws_processJobTags (d : Yaml) (h : wellShapedJob d = true) :
    ∃ ts, processJobTags d = .ok ts := by
  rcases d with s | n | b | _ | xs | des
  case map =>
    simp only [wellShapedJob, Bool.and_eq_true] at h
    obtain ⟨⟨⟨⟨h₁, h₂⟩, -⟩, -⟩, -⟩ := h
    rw [processJobTags]
    have hbase : ∃ ts₀, (Yaml.lookup des "tags").getD (Yaml.map [])
        = Yaml.map ts₀ := by
      obtain htg | ⟨w, htg⟩ := optionSplit (Yaml.lookup des "tags")
      · rw [htg]
        exact ⟨[], rfl⟩
      · rw [htg] at h₁
        rcases w with s | n | b | _ | xs | ts₀
        case map => exact ⟨ts₀, by rw [htg]; rfl⟩
        all_goals simp at h₁
    obtain ⟨ts₀, hts₀⟩ := hbase
    have hcl : ∃ cs : List Yaml, cs.all wellShapedCluster = true ∧
        pyIterList ((Yaml.lookup des "job_clusters").getD (Yaml.seq []))
          = .ok cs := by
      obtain hjc | ⟨w, hjc⟩ := optionSplit (Yaml.lookup des "job_clusters")
      · rw [hjc]
        exact ⟨[], rfl, rfl⟩
      · rw [hjc] at h₂
        rcases w with s | n | b | _ | cs | es
        case seq => exact ⟨cs, h₂, by rw [hjc]; rfl⟩
        all_goals simp at h₂
    obtain ⟨cs, hcs, hiter⟩ := hcl
    simp only [pyGet, bindOk, hiter, hts₀]
    obtain ⟨tsN, hfold⟩ := ws_foldTags cs ts₀ hcs
    rw [hfold, bindOk]
    exact ⟨tsN, rfl⟩
  all_goals simp [wellShapedJob] at h

end DabValidator

namespace DabValidator

theorem ws_exceptConcat {α : Type} (f : α → Except String (List Finding))
    (p : α → Bool) (hf : ∀ a, p a = true → ∃ w, f a = .ok w) :
    ∀ l : List α, l.all p = true → ∃ w, exceptConcat f l = .ok w := by
  intro l
  induction l with
  | nil => intro _; exact ⟨[], rfl⟩
  | cons x rest ih =>
      intro hall
      simp only [List.all_cons, Bool.and_eq_true] at hall
      obtain ⟨hx, hrest⟩ := hall
      obtain ⟨w₁, hw₁⟩ := hf x hx
      obtain ⟨w₂, hw₂⟩ := ih hrest
      exact ⟨w₁ ++ w₂, by rw [exceptConcat, hw₁, bindOk, hw₂, bindOk]⟩

theorem ws_jobsNav (cfg : Yaml) (h : wellShapedConfig cfg = true) :
    ∃ jobs : List (String × Yaml),
      (jobs.all fun e => wellShapedJob e.2) = true ∧
      ∀ {β : Type} (k : List (String × Yaml) → Except String β),
        ((pyGet cfg "resources" (.map [])) >>= fun resources =>
         (pyGet resources "jobs" (.map [])) >>= fun jobsY =>
         (pyItems jobsY) >>= fun jobs => k jobs) = k jobs := by
  rcases cfg with s | n | b | _ | xs | ces
  case map =>
    obtain hres | ⟨r, hres⟩ := optionSplit (Yaml.lookup ces "resources")
    · refine ⟨[], rfl, ?_⟩
      intro β k
      simp [pyGet, hres, bindOk, pyItems, Yaml.lookup]
    · rcases r with s | n | b | _ | xs | res
      case map =>
        obtain hj | ⟨jy, hj⟩ := optionSplit (Yaml.lookup res "jobs")
        · refine ⟨[], rfl, ?_⟩
          intro β k
          simp [pyGet, hres, hj, bindOk, pyItems]
        · rcases jy with s | n | b | _ | xs | jobs
          case map =>
            have hall : (jobs.all fun e => wellShapedJob e.2) = true := by
              simpa [wellShapedConfig, hres, hj] using h
            refine ⟨jobs, hall, ?_⟩
            intro β k
            simp [pyGet, hres, hj, bindOk, pyItems]
          all_goals simp [wellShapedConfig, hres, hj] at h
      all_goals simp [wellShapedConfig, hres] at h
  all_goals simp [wellShapedConfig] at h

theorem ws_checkNamingClusters (cs : List Yaml) :
    cs.all wellShapedCluster = true →
    ∃ w, checkNamingClusters cs = .ok w := by
  induction cs with
  | nil => intro _; exact ⟨[], rfl⟩
  | cons c rest ih =>
      intro h
      simp only [List.all_cons, Bool.and_eq_true] at h
      obtain ⟨hc, hrest⟩ := h
      obtain ⟨w₂, hw₂⟩ := ih hrest
      rcases c with s | n | b | _ | xs | ces
      case map =>
        simp only [wellShapedCluster, Bool.and_eq_true] at hc
        obtain ⟨h₁, -⟩ := hc
        have hck : ∃ s, (Yaml.lookup ces "job_cluster_key").getD (Yaml.str "")
            = Yaml.str s := by
          obtain hk | ⟨w, hk⟩ := optionSplit (Yaml.lookup ces "job_cluster_key")
          · rw [hk]; exact ⟨"", rfl⟩
          · rw [hk] at h₁
            rcases w with s | n | b | _ | xs | es
            case str => exact ⟨s, by rw [hk]; rfl⟩
            all_goals simp at h₁
        obtain ⟨s, hs⟩ := hck
        rw [checkNamingClusters]
        simp only [pyGet, bindOk, hs, hw₂]
        by_cases hpt : pyTruthy (Yaml.str s) = true
        · rw [if_pos hpt]
          exact ⟨_, rfl⟩
        · rw [if_neg hpt]
          exact ⟨_, rfl⟩
      all_goals simp [wellShapedCluster] at hc

theorem ws_jobClusters (des : List (String × Yaml))
    (h₂ : (match Yaml.lookup des "job_clusters" with
      | some (.seq cs) => cs.all wellShapedCluster
      | some _ => false
      | none => true) = true) :
    ∃ cs : List Yaml, cs.all wellShapedCluster = true ∧
      pyIterList ((Yaml.lookup des "job_clusters").getD (Yaml.seq []))
        = .ok cs := by
  obtain hjc | ⟨w, hjc⟩ := optionSplit (Yaml.lookup des "job_clusters")
  · rw [hjc]
    exact ⟨[], rfl, rfl⟩
  · rw [hjc] at h₂
    rcases w with s | n | b | _ | cs | es
    case seq => exact ⟨cs, h₂, by rw [hjc]; rfl⟩
    all_goals simp at h₂

theorem ws_checkNamingJob (n : String) (d : Yaml) (fp : String)
    (h : wellShapedJob d = true) :
    ∃ w, checkNamingJob n d fp = .ok w := by
  rcases d with s | nn | b | _ | xs | des
  case map =>
    simp only [wellShapedJob, Bool.and_eq_true] at h
    obtain ⟨⟨⟨⟨-, h₂⟩, -⟩, -⟩, -⟩ := h
    obtain ⟨cs, hcs, hiter⟩ := ws_jobClusters des h₂
    obtain ⟨w₃, hw₃⟩ := ws_checkNamingClusters cs hcs
    rw [checkNamingJob]
    simp only [pyGet, bindOk, hiter, hw₃]
    exact ⟨_, rfl⟩
  all_goals simp [wellShapedJob] at h

theorem ws_checkSecurityTasks (n : String) (tsk : List Yaml) :
    tsk.all wellShapedTask = true →
    ∃ w, checkSecurityTasks n tsk = .ok w := by
  induction tsk with
  | nil => intro _; exact ⟨[], rfl⟩
  | cons t rest ih =>
      intro h
      simp only [List.all_cons, Bool.and_eq_true] at h
      obtain ⟨ht, hrest⟩ := h
      obtain ⟨w₂, hw₂⟩ := ih hrest
      rcases t with s | nn | b | _ | xs | tes
      case map =>
        have hnb : ∃ nes, (Yaml.lookup tes "notebook_task").getD (Yaml.map [])
            = Yaml.map nes ∧
            (match Yaml.lookup nes "notebook_path" with
              | some (.str _) => true
              | some _ => false
              | none => true) = true := by
          simp only [wellShapedTask] at ht
          obtain hk | ⟨w, hk⟩ := optionSplit (Yaml.lookup tes "notebook_task")
          · rw [hk]
            exact ⟨[], rfl, rfl⟩
          · rw [hk] at ht
            rcases w with s | nn | b | _ | xs | nes
            case map => exact ⟨nes, by rw [hk]; rfl, ht⟩
            all_goals simp at ht
        obtain ⟨nes, hnes, hpath⟩ := hnb
        have hnp : ∃ s, (Yaml.lookup nes "notebook_path").getD (Yaml.str "")
            = Yaml.str s := by
          obtain hk | ⟨w, hk⟩ := optionSplit (Yaml.lookup nes "notebook_path")
          · rw [hk]; exact ⟨"", rfl⟩
          · rw [hk] at hpath
            rcases w with s | nn | b | _ | xs | es
            case str => exact ⟨s, by rw [hk]; rfl⟩
            all_goals simp at hpath
        obtain ⟨s, hsnp⟩ := hnp
        rw [checkSecurityTasks]
        simp only [pyGet, bindOk, hnes, hsnp, pyContains, hw₂]
        by_cases hb : decide ("/tmp/".toList <:+: s.toList) = true
        · rw [if_pos hb]
          simp only [pureOk, bindOk]
          exact ⟨_, rfl⟩
        · rw [if_neg hb]
          exact ⟨_, rfl⟩
      all_goals simp [wellShapedTask] at ht
  
end DabValidator

namespace DabValidator

theorem ws_checkSecurityJob (n : String) (d : Yaml)
    (h : wellShapedJob d = true) :
    ∃ w, checkSecurityJob n d = .ok w := by
  rcases d with s | nn | b | _ | xs | des
  case map =>
    simp only [wellShapedJob, Bool.and_eq_true] at h
    obtain ⟨⟨⟨⟨-, -⟩, h₃⟩, h₄⟩, -⟩ := h
    have htasks : ∃ tsk : List Yaml, tsk.all wellShapedTask = true ∧
        pyIterList ((Yaml.lookup des "tasks").getD (Yaml.seq []))
          = .ok tsk := by
      obtain hk | ⟨w, hk⟩ := optionSplit (Yaml.lookup des "tasks")
      · rw [hk]
        exact ⟨[], rfl, rfl⟩
      · rw [hk] at h₃
        rcases w with s | nn | b | _ | tsk | es
        case seq => exact ⟨tsk, h₃, by rw [hk]; rfl⟩
        all_goals simp at h₃
    obtain ⟨tsk, htsk, hiter⟩ := htasks
    obtain ⟨w₁, hw₁⟩ := ws_checkSecurityTasks n tsk htsk
    rw [checkSecurityJob]
    simp only [pyGet, bindOk, hiter, hw₁]
    obtain hk | ⟨w, hk⟩ := optionSplit (Yaml.lookup des "max_concurrent_runs")
    · rw [hk]
      exact ⟨_, rfl⟩
    · rw [hk] at h₄ ⊢
      rcases w with s | m | b | _ | xs | es
      case int => exact ⟨_, rfl⟩
      case bool => exact ⟨_, rfl⟩
      all_goals simp at h₄
  all_goals simp [wellShapedJob] at h

theorem ws_checkSecurityCompliance (cfg : Yaml) (fp : String)
    (h : wellShapedConfig cfg = true) :
    ∃ q, checkSecurityCompliance cfg fp = .ok q := by
  obtain ⟨jobs, hall, hnav⟩ := ws_jobsNav cfg h
  obtain ⟨w, hw⟩ := ws_exceptConcat (fun e => checkSecurityJob e.1 e.2)
    (fun e => wellShapedJob e.2) (fun a ha => ws_checkSecurityJob a.1 a.2 ha)
    jobs hall
  refine ⟨(checkSecurityPatterns (yamlDump cfg) fp, w), ?_⟩
  have hmain := hnav (fun jobs =>
    exceptConcat (fun e => checkSecurityJob e.1 e.2) jobs >>= fun warnFs =>
      Except.ok (checkSecurityPatterns (yamlDump cfg) fp, warnFs))
  rw [show checkSecurityCompliance cfg fp
      = ((pyGet cfg "resources" (.map [])) >>= fun resources =>
        (pyGet resources "jobs" (.map [])) >>= fun jobsY =>
        (pyItems jobsY) >>= fun jobs =>
        exceptConcat (fun e => checkSecurityJob e.1 e.2) jobs >>= fun warnFs =>
          Except.ok (checkSecurityPatterns (yamlDump cfg) fp, warnFs)) from rfl,
    hmain, hw, bindOk]

theorem ws_checkCostCluster (n : String) (c : Yaml)
    (h : wellShapedCluster c = true) :
    ∃ w, checkCostCluster n c = .ok w := by
  rcases c with s | nn | b | _ | xs | ces
  case map =>
    simp only [wellShapedCluster, Bool.and_eq_true] at h
    obtain ⟨-, h₂⟩ := h
    have hnc : ∃ nes, (Yaml.lookup ces "new_cluster").getD (Yaml.map [])
        = Yaml.map nes := by
      obtain hk | ⟨w, hk⟩ := optionSplit (Yaml.lookup ces "new_cluster")
      · rw [hk]; exact ⟨[], rfl⟩
      · rw [hk] at h₂
        rcases w with s | nn | b | _ | xs | nes
        case map => exact ⟨nes, by rw [hk]; rfl⟩
        all_goals simp at h₂
    obtain ⟨nes, hnes⟩ := hnc
    rw [checkCostCluster]
    simp only [pyGet, bindOk, hnes]
    exact ⟨_, rfl⟩
  all_goals simp [wellShapedCluster] at h

theorem ws_checkCostJob (n : String) (d : Yaml)
    (h : wellShapedJob d = true) :
    ∃ w, checkCostJob n d = .ok w := by
  rcases d with s | nn | b | _ | xs | des
  case map =>
    simp only [wellShapedJob, Bool.and_eq_true] at h
    obtain ⟨⟨⟨⟨-, h₂⟩, -⟩, -⟩, -⟩ := h
    obtain ⟨cs, hcs, hiter⟩ := ws_jobClusters des h₂
    obtain ⟨w, hw⟩ := ws_exceptConcat (checkCostCluster n) wellShapedCluster
      (fun a ha => ws_checkCostCluster n a ha) cs hcs
    rw [checkCostJob]
    simp only [pyGet, bindOk, hiter]
    exact ⟨w, hw⟩
  all_goals simp [wellShapedJob] at h

theorem ws_checkBestPracticesJob (n : String) (d : Yaml)
    (h : wellShapedJob d = true) :
    ∃ w, checkBestPracticesJob n d = .ok w := by
  rcases d with s | nn | b | _ | xs | des
  case map =>
    simp only [wellShapedJob, Bool.and_eq_true] at h
    obtain ⟨⟨⟨⟨-, -⟩, -⟩, -⟩, h₅⟩ := h
    have hen : ∃ nes, (Yaml.lookup des "email_notifications").getD (Yaml.map [])
        = Yaml.map nes := by
      obtain hk | ⟨w, hk⟩ := optionSplit (Yaml.lookup des "email_notifications")
      · rw [hk]; exact ⟨[], rfl⟩
      · rw [hk] at h₅
        rcases w with s | nn | b | _ | xs | nes
        case map => exact ⟨nes, by rw [hk]; rfl⟩
        all_goals simp at h₅
    obtain ⟨nes, hnes⟩ := hen
    rw [checkBestPracticesJob]
    simp only [pyGet, bindOk, hnes, pyContains]
    exact ⟨_, rfl⟩
  all_goals simp [wellShapedJob] at h

theorem ws_checkCostOptimization (cfg : Yaml) (fp : String)
    (h : wellShapedConfig cfg = true) :
    ∃ w, checkCostOptimization cfg fp = .ok w := by
  obtain ⟨jobs, hall, hnav⟩ := ws_jobsNav cfg h
  obtain ⟨w, hw⟩ := ws_exceptConcat (fun e => checkCostJob e.1 e.2)
    (fun e => wellShapedJob e.2) (fun a ha => ws_checkCostJob a.1 a.2 ha)
    jobs hall
  refine ⟨w, ?_⟩
  rw [show checkCostOptimization cfg fp
      = ((pyGet cfg "resources" (.map [])) >>= fun resources =>
        (pyGet resources "jobs" (.map [])) >>= fun jobsY =>
        (pyItems jobsY) >>= fun jobs =>
        exceptConcat (fun e => checkCostJob e.1 e.2) jobs) from rfl,
    hnav (fun jobs => exceptConcat (fun e => checkCostJob e.1 e.2) jobs), hw]

theorem ws_checkBestPractices (cfg : Yaml) (fp : String)
    (h : wellShapedConfig cfg = true) :
    ∃ w, checkBestPractices cfg fp = .ok w := by
  obtain ⟨jobs, hall, hnav⟩ := ws_jobsNav cfg h
  obtain ⟨w, hw⟩ := ws_exceptConcat (fun e => checkBestPracticesJob e.1 e.2)
    (fun e => wellShapedJob e.2)
    (fun a ha => ws_checkBestPracticesJob a.1 a.2 ha) jobs hall
  refine ⟨w, ?_⟩
  rw [show checkBestPractices cfg fp
      = ((pyGet cfg "resources" (.map [])) >>= fun resources =>
        (pyGet resources "jobs" (.map [])) >>= fun jobsY =>
        (pyItems jobsY) >>= fun jobs =>
        exceptConcat (fun e => checkBestPracticesJob e.1 e.2) jobs) from rfl,
    hnav (fun jobs => exceptConcat (fun e => checkBestPracticesJob e.1 e.2) jobs),
    hw]

theorem ws_checkNamingConventions (cfg : Yaml) (fp : String)
    (h : wellShapedConfig cfg = true) :
    ∃ w, checkNamingConventions cfg fp = .ok w := by
  obtain ⟨jobs, hall, hnav⟩ := ws_jobsNav cfg h
  obtain ⟨w, hw⟩ := ws_exceptConcat (fun e => checkNamingJob e.1 e.2 fp)
    (fun e => wellShapedJob e.2) (fun a ha => ws_checkNamingJob a.1 a.2 fp ha)
    jobs hall
  refine ⟨w, ?_⟩
  rw [show checkNamingConventions cfg fp
      = ((pyGet cfg "resources" (.map [])) >>= fun resources =>
        (pyGet resources "jobs" (.map [])) >>= fun jobsY =>
        (pyItems jobsY) >>= fun jobs =>
        exceptConcat (fun e => checkNamingJob e.1 e.2 fp) jobs) from rfl,
    hnav (fun jobs => exceptConcat (fun e => checkNamingJob e.1 e.2 fp) jobs),
    hw]

theorem ws_checkRequiredTagsJobs (fp : String) :
    ∀ jobs : List (String × Yaml), (jobs.all fun e => wellShapedJob e.2) = true →
      ∃ p, checkRequiredTagsJobs fp jobs = .ok p := by
  intro jobs
  induction jobs with
  | nil => intro _; exact ⟨([], []), rfl⟩
  | cons e rest ih =>
      intro hall
      simp only [List.all_cons, Bool.and_eq_true] at hall
      obtain ⟨he, hrest⟩ := hall
      obtain ⟨n, d⟩ := e
      obtain ⟨ts, hts⟩ := ws_processJobTags d he
      obtain ⟨⟨fs₂, rest'⟩, hw₂⟩ := ih hrest
      have hjob : ∃ d', checkRequiredTagsJob n d fp
          = .ok ((if (missingOf ts).isEmpty then []
              else [Finding.missingTags n fp (missingOf ts)]), d') := by
        rw [checkRequiredTagsJob, hts, bindOk]
        exact ⟨_, rfl⟩
      obtain ⟨d', hjob⟩ := hjob
      rw [checkRequiredTagsJobs, hjob]
      simp only [bindOk]
      rw [hw₂]
      simp only [bindOk]
      exact ⟨_, rfl⟩

theorem ws_checkRequiredTags (cfg : Yaml) (fp : String)
    (h : wellShapedConfig cfg = true) :
    ∃ p, checkRequiredTags cfg fp = .ok p := by
  obtain ⟨jobs, hall, hnav⟩ := ws_jobsNav cfg h
  obtain ⟨⟨fs₀, jobs'⟩, hw⟩ := ws_checkRequiredTagsJobs fp jobs hall
  refine ⟨(fs₀, replaceJobs cfg jobs'), ?_⟩
  rw [show checkRequiredTags cfg fp
      = ((pyGet cfg "resources" (.map [])) >>= fun resources =>
        (pyGet resources "jobs" (.map [])) >>= fun jobsY =>
        (pyItems jobsY) >>= fun jobs =>
        checkRequiredTagsJobs fp jobs >>= fun p =>
          match p with
          | (fs, jobs') => Except.ok (fs, replaceJobs cfg jobs')) from rfl,
    hnav (fun jobs => checkRequiredTagsJobs fp jobs >>= fun p =>
      match p with
      | (fs, jobs') => Except.ok (fs, replaceJobs cfg jobs')),
    hw, bindOk]

end DabValidator

namespace DabValidator

/-- C7 (counterexample): a successfully loaded tree whose job definition is
a string rather than a mapping — `resources.jobs.J: oops` — is not treated
as "finding not applicable": the naming evaluator calls `.get` on a `str`
and the whole per-file run aborts with `AttributeError`. -/
theorem evaluators_raise_on_non_mapping_job :
    validateJobFile "resources/job.yml"
        (.ok (Yaml.map [("resources", Yaml.map [("jobs",
          Yaml.map [("J", Yaml.str "oops")])])]))
      = .error "AttributeError" := by
  decide

/-- C7 (amended): the evaluators are exception-free only on well-shaped
trees — where every job definition is a mapping whose `tags`,
`job_clusters` (with mapping clusters and `new_cluster`/`custom_tags`
mappings), `tasks` (with mapping tasks and `notebook_task` mappings,
string or absent `notebook_path`), `max_concurrent_runs` (int or bool) and
`email_notifications` entries have the expected shapes.  On such a tree
every evaluator returns normally, and so does the whole per-file run. -/
theorem evaluators_total_on_well_shaped (cfg : Yaml) (fp : String)
    (h : wellShapedConfig cfg = true) :
    (∃ w, checkNamingConventions cfg fp = .ok w) ∧
    (∃ p, checkRequiredTags cfg fp = .ok p) ∧
    (∃ q, checkSecurityCompliance cfg fp = .ok q) ∧
    (∃ u, checkCostOptimization cfg fp = .ok u) ∧
    (∃ v, checkBestPractices cfg fp = .ok v) ∧
    (∃ b, validateJobFile fp (.ok cfg) = .ok b) := by
  refine ⟨ws_checkNamingConventions cfg fp h, ws_checkRequiredTags cfg fp h,
    ws_checkSecurityCompliance cfg fp h, ws_checkCostOptimization cfg fp h,
    ws_checkBestPractices cfg fp h, ?_⟩
  by_cases hpt : pyTruthy cfg = true
  · have hld : loadYaml fp (Except.ok cfg) = (cfg, []) := by
      rw [loadYaml, if_pos hpt]
    obtain ⟨w₂, hw₂⟩ := ws_checkNamingConventions cfg fp h
    obtain ⟨⟨e₃, cfg'⟩, hp⟩ := ws_checkRequiredTags cfg fp h
    have hws' : wellShapedConfig cfg' = true := by
      rw [checkRequiredTags_tree cfg fp e₃ cfg' hp]
      exact wellShapedConfig_retag cfg h
    obtain ⟨⟨e₄, w₄⟩, hq⟩ := ws_checkSecurityCompliance cfg' fp hws'
    obtain ⟨s₅, hs₅⟩ := ws_checkCostOptimization cfg' fp hws'
    obtain ⟨s₆, hs₆⟩ := ws_checkBestPractices cfg' fp hws'
    refine ⟨⟨[] ++ checkVariableUsagePolicy cfg fp ++ e₃ ++ e₄,
      w₂ ++ w₄, s₅ ++ s₆⟩, ?_⟩
    rw [validateJobFile, hld]
    simp only [hpt, Bool.not_true, Bool.false_eq_true, if_false]
    rw [hw₂]
    simp only [bindOk]
    rw [hp]
    simp only [bindOk]
    rw [hq]
    simp only [bindOk]
    rw [hs₅]
    simp only [bindOk]
    rw [hs₆]
    simp only [bindOk, pureOk]
  · have hld : loadYaml fp (Except.ok cfg) = (Yaml.map [], []) := by
      rw [loadYaml, if_neg hpt]
    exact ⟨⟨[], [], []⟩, by rw [validateJobFile, hld]; rfl⟩

/-- C7 witness: the demo configuration is well-shaped and its per-file run
returns normally. -/
theorem evaluators_total_on_well_shaped_witness :
    wellShapedConfig demoTagCfg = true
    ∧ (∃ b, validateJobFile "f.yml" (.ok demoTagCfg) = .ok b) :=
  ⟨by decide,
   (evaluators_total_on_well_shaped demoTagCfg "f.yml" (by decide)).2.2.2.2.2⟩

end DabValidator

namespace DabValidator

/-! ## Structured paths for the variable-usage policy (claim C3)

The walk of `check_object` builds string paths; to state which tree
positions it reports, paths are modelled structurally (a mapping key step
or a sequence index step) together with the exact f-string rendering the
source performs. -/

/-- One step of a path from the root of a configuration tree. -/
inductive PathElem where
  | key (k : String)
  | idx (i : Nat)
deriving Repr, DecidableEq

/-- One step of the path building of `check_object`:
`f"\x7bpath\x7d.\x7bkey\x7d" if path else key` for mapping keys,
`f"\x7bpath\x7d[\x7bi\x7d]"` for sequence indices. -/
def renderStep (path : String) : PathElem → String
  | .key k => if path = "" then k else path ++ "." ++ k
  | .idx i => path ++ "[" ++ toString i ++ "]"

/-- The dotted/indexed rendering of a structured path from the root. -/
def renderPath (pes : List PathElem) : String :=
  pes.foldl renderStep ""

/-- Navigation to a structured path in a tree. -/
def Yaml.atPath : List PathElem → Yaml → Option Yaml
  | [], y => some y
  | PathElem.key k :: rest, .map es =>
      (match Yaml.lookup es k with
       | some v => Yaml.atPath rest v
       | none => none)
  | PathElem.idx i :: rest, .seq xs =>
      (match xs.get? i with
       | some v => Yaml.atPath rest v
       | none => none)
  | _ :: _, _ => none

/-- The path ends with a mapping key from the sensitive-field set. -/
def sensLast : List PathElem → Bool
  | [] => false
  | e :: [] =>
      (match e with
       | PathElem.key k => sensitiveFields.contains k
       | PathElem.idx _ => false)
  | _ :: e :: rest => sensLast (e :: rest)

/-- Mapping keys are pairwise distinct (the invariant `yaml.safe_load`
guarantees: a Python dict cannot hold a key twice). -/
def keysDistinct : List String → Bool
  | [] => true
  | k :: rest => !rest.contains k && keysDistinct rest

mutual

/-- Every mapping anywhere in the tree has pairwise-distinct keys. -/
def yamlNodup : Yaml → Bool
  | .map es => keysDistinct (es.map Prod.fst) && yamlNodupEntries es
  | .seq xs => yamlNodupItems xs
  | _ => true

/-- `yamlNodup` on every value of a mapping entry list. -/
def yamlNodupEntries : List (String × Yaml) → Bool
  | [] => true
  | (_, v) :: rest => yamlNodup v && yamlNodupEntries rest

/-- `yamlNodup` on every item of a sequence. -/
def yamlNodupItems : List Yaml → Bool
  | [] => true
  | x :: rest => yamlNodup x && yamlNodupItems rest

end

/-- The spec's per-entry test: the occurrence the claim describes — a
sensitive mapping key whose value is a string that does not start with the
variable sentinel — at the given prefix path. -/
def directHit (k : String) (v : Yaml) (pre : List PathElem) :
    List (List PathElem × String) :=
  if sensitiveFields.contains k then
    match v with
    | .str s =>
        if pyStartsWith s varSentinel then []
        else [(pre ++ [PathElem.key k], s)]
    | _ => []
  else []

mutual

/-- Spec-side occurrence collector: every position of a sensitive mapping
key with a hardcoded string value, as a structured path with the value. -/
def sensOccs : Yaml → List PathElem → List (List PathElem × String)
  | .map es, pre => sensOccsEntries es pre
  | .seq xs, pre => sensOccsItems xs pre 0
  | _, _ => []

/-- `sensOccs` over the entries of a mapping. -/
def sensOccsEntries :
    List (String × Yaml) → List PathElem → List (List PathElem × String)
  | [], _ => []
  | (k, v) :: rest, pre =>
      directHit k v pre ++
      sensOccs v (pre ++ [PathElem.key k]) ++
      sensOccsEntries rest pre

/-- `sensOccs` over the items of a sequence, counting from `i`. -/
def sensOccsItems :
    List Yaml → List PathElem → Nat → List (List PathElem × String)
  | [], _, _ => []
  | x :: rest, pre, i =>
      sensOccs x (pre ++ [PathElem.idx i]) ++
      sensOccsItems rest pre (i + 1)

end

/-- A demo configuration for the variable-usage policy: one hardcoded
sensitive field, one variable-reference sensitive field inside a sequence,
one non-string entry. -/
def demoVarCfg : Yaml :=
  .map [("existing_cluster_id", .str "abc-123"),
        ("a", .seq [.map [("catalog", .str (varSentinel ++ "var.cat\x7d"))]]),
        ("b", .int 3)]

end DabValidator

namespace DabValidator

theorem renderPath_snoc (pre : List PathElem) (e : PathElem) :
    renderPath (pre ++ [e]) = renderStep (renderPath pre) e := by
  simp [renderPath, List.foldl_append]

mutual

theorem checkObject_occs (fp : String) :
    ∀ (y : Yaml) (pre : List PathElem),
      checkObject fp y (renderPath pre)
        = (sensOccs y pre).map
            (fun o => Finding.hardcodedSensitive (renderPath o.1) fp o.2)
  | .map es, pre => by
      rw [checkObject, sensOccs]
      exact checkObjectEntries_occs fp es pre
  | .seq xs, pre => by
      rw [checkObject, sensOccs]
      exact checkObjectItems_occs fp xs pre 0
  | .str _, _ => rfl
  | .int _, _ => rfl
  | .bool _, _ => rfl
  | .null, _ => rfl

theorem checkObjectEntries_occs (fp : String) :
    ∀ (es : List (String × Yaml)) (pre : List PathElem),
      checkObjectEntries fp es (renderPath pre)
        = (sensOccsEntries es pre).map
            (fun o => Finding.hardcodedSensitive (renderPath o.1) fp o.2)
  | [], _ => rfl
  | (k, v) :: rest, pre => by
      have hcp : (if renderPath pre = "" then k else renderPath pre ++ "." ++ k)
          = renderPath (pre ++ [PathElem.key k]) := by
        rw [renderPath_snoc]
        rfl
      cases v with
      | str s =>
          rw [checkObjectEntries, sensOccsEntries, directHit]
          simp only [List.map_append, hcp,
            checkObject_occs fp (Yaml.str s) (pre ++ [PathElem.key k]),
            checkObjectEntries_occs fp rest pre]
          by_cases hk : k ∈ sensitiveFields
          · by_cases hs : pyStartsWith s varSentinel = true
            · simp [hk, hs]
            · simp [hk, hs]
          · simp [hk]
      | int n =>
          rw [checkObjectEntries, sensOccsEntries, directHit] <;>
            try (intro s h; cases h)
          simp only [List.map_append, hcp,
            checkObject_occs fp (Yaml.int n) (pre ++ [PathElem.key k]),
            checkObjectEntries_occs fp rest pre]
          simp
      | bool b =>
          rw [checkObjectEntries, sensOccsEntries, directHit] <;>
            try (intro s h; cases h)
          simp only [List.map_append, hcp,
            checkObject_occs fp (Yaml.bool b) (pre ++ [PathElem.key k]),
            checkObjectEntries_occs fp rest pre]
          simp
      | null =>
          rw [checkObjectEntries, sensOccsEntries, directHit] <;>
            try (intro s h; cases h)
          simp only [List.map_append, hcp,
            checkObject_occs fp Yaml.null (pre ++ [PathElem.key k]),
            checkObjectEntries_occs fp rest pre]
          simp
      | seq xs =>
          rw [checkObjectEntries, sensOccsEntries, directHit] <;>
            try (intro s h; cases h)
          simp only [List.map_append, hcp,
            checkObject_occs fp (Yaml.seq xs) (pre ++ [PathElem.key k]),
            checkObjectEntries_occs fp rest pre]
          simp
      | map es' =>
          rw [checkObjectEntries, sensOccsEntries, directHit] <;>
            try (intro s h; cases h)
          simp only [List.map_append, hcp,
            checkObject_occs fp (Yaml.map es') (pre ++ [PathElem.key k]),
            checkObjectEntries_occs fp rest pre]
          simp

theorem checkObjectItems_occs (fp : String) :
    ∀ (xs : List Yaml) (pre : List PathElem) (i : Nat),
      checkObjectItems fp xs (renderPath pre) i
        = (sensOccsItems xs pre i).map
            (fun o => Finding.hardcodedSensitive (renderPath o.1) fp o.2)
  | [], _, _ => rfl
  | x :: rest, pre, i => by
      have hcp : renderPath pre ++ "[" ++ toString i ++ "]"
          = renderPath (pre ++ [PathElem.idx i]) := by
        rw [renderPath_snoc]
        rfl
      rw [checkObjectItems, sensOccsItems]
      simp only [List.map_append]
      rw [hcp, checkObject_occs fp x (pre ++ [PathElem.idx i]),
        checkObjectItems_occs fp rest pre (i + 1)]

end

end DabValidator

namespace DabValidator

theorem directHit_shift (k : String) (v : Yaml) (pre' pre : List PathElem) :
    directHit k v (pre ++ pre')
      = (directHit k v pre').map (fun o => (pre ++ o.1, o.2)) := by
  cases v <;> simp [directHit, apply_ite
    (List.map (fun o : List PathElem × String => (pre ++ o.1, o.2)))]

mutual

theorem sensOccs_shift :
    ∀ (y : Yaml) (pre' pre : List PathElem),
      sensOccs y (pre ++ pre')
        = (sensOccs y pre').map (fun o => (pre ++ o.1, o.2))
  | .map es, pre', pre => by
      rw [sensOccs, sensOccs]
      exact sensOccsEntries_shift es pre' pre
  | .seq xs, pre', pre => by
      rw [sensOccs, sensOccs]
      exact sensOccsItems_shift xs pre' pre 0
  | .str _, _, _ => rfl
  | .int _, _, _ => rfl
  | .bool _, _, _ => rfl
  | .null, _, _ => rfl

theorem sensOccsEntries_shift :
    ∀ (es : List (String × Yaml)) (pre' pre : List PathElem),
      sensOccsEntries es (pre ++ pre')
        = (sensOccsEntries es pre').map (fun o => (pre ++ o.1, o.2))
  | [], _, _ => rfl
  | (k, v) :: rest, pre', pre => by
      rw [sensOccsEntries, sensOccsEntries]
      simp only [List.map_append]
      rw [directHit_shift k v pre' pre,
        List.append_assoc pre pre' [PathElem.key k],
        sensOccs_shift v (pre' ++ [PathElem.key k]) pre,
        sensOccsEntries_shift rest pre' pre]

theorem sensOccsItems_shift :
    ∀ (xs : List Yaml) (pre' pre : List PathElem) (i : Nat),
      sensOccsItems xs (pre ++ pre') i
        = (sensOccsItems xs pre' i).map (fun o => (pre ++ o.1, o.2))
  | [], _, _, _ => rfl
  | x :: rest, pre', pre, i => by
      rw [sensOccsItems, sensOccsItems]
      simp only [List.map_append]
      rw [List.append_assoc pre pre' [PathElem.idx i],
        sensOccs_shift x (pre' ++ [PathElem.idx i]) pre,
        sensOccsItems_shift rest pre' pre (i + 1)]

end

theorem lookup_mem (es : List (String × Yaml)) (k : String) (w : Yaml)
    (h : Yaml.lookup es k = some w) : (k, w) ∈ es := by
  induction es with
  | nil => simp [Yaml.lookup] at h
  | cons e rest ih =>
      obtain ⟨k', v'⟩ := e
      rw [Yaml.lookup] at h
      by_cases hk : k' = k
      · rw [if_pos hk] at h
        injection h with h'
        subst hk
        subst h'
        exact List.mem_cons_self _ _
      · rw [if_neg hk] at h
        exact List.mem_cons_of_mem _ (ih h)

theorem mem_lookup (es : List (String × Yaml)) (k : String) (w : Yaml)
    (hd : keysDistinct (es.map Prod.fst) = true) (h : (k, w) ∈ es) :
    Yaml.lookup es k = some w := by
  induction es with
  | nil => simp at h
  | cons e rest ih =>
      obtain ⟨k', v'⟩ := e
      rw [List.map_cons, keysDistinct, Bool.and_eq_true] at hd
      obtain ⟨h₁, h₂⟩ := hd
      rw [Yaml.lookup]
      rcases List.mem_cons.mp h with heq | hm
      · injection heq with hk hv
        rw [if_pos hk.symm, hv]
      · have hkk : ¬ (k' = k) := by
          intro hkeq
          subst hkeq
          have : k' ∈ rest.map Prod.fst := List.mem_map.mpr ⟨(k', w), hm, rfl⟩
          simp [this] at h₁
        rw [if_neg hkk]
        exact ih h₂ hm

theorem yamlNodupEntries_mem (es : List (String × Yaml)) (k : String) (w : Yaml)
    (hne : yamlNodupEntries es = true) (hm : (k, w) ∈ es) :
    yamlNodup w = true := by
  induction es with
  | nil => simp at hm
  | cons e rest ih =>
      obtain ⟨k', v'⟩ := e
      rw [yamlNodupEntries, Bool.and_eq_true] at hne
      rcases List.mem_cons.mp hm with heq | hmr
      · injection heq with hk hv
        subst hv
        exact hne.1
      · exact ih hne.2 hmr

theorem yamlNodupItems_get (xs : List Yaml) :
    ∀ (j : Nat) (x : Yaml), yamlNodupItems xs = true → xs.get? j = some x →
      yamlNodup x = true := by
  induction xs with
  | nil => intro j x _ hg; simp at hg
  | cons y rest ih =>
      intro j x hni hg
      rw [yamlNodupItems, Bool.and_eq_true] at hni
      cases j with
      | zero =>
          have hg' : some y = some x := hg
          injection hg' with h'
          subst h'
          exact hni.1
      | succ j' =>
          exact ih j' x hni.2 hg

theorem sensLast_cons (e : PathElem) (suf : List PathElem) (h : suf ≠ []) :
    sensLast (e :: suf) = sensLast suf := by
  cases suf with
  | nil => exact absurd rfl h
  | cons e' rest => rfl

theorem sensLast_nonempty (pes : List PathElem) (h : sensLast pes = true) :
    pes ≠ [] := by
  intro heq
  subst heq
  simp [sensLast] at h

theorem mem_directHit (k : String) (w : Yaml) (pre pes : List PathElem)
    (v : String) :
    (pes, v) ∈ directHit k w pre ↔
      pes = pre ++ [PathElem.key k] ∧ sensitiveFields.contains k = true
      ∧ w = Yaml.str v ∧ pyStartsWith v varSentinel = false := by
  cases w with
  | str s =>
      rw [directHit]
      by_cases hk : sensitiveFields.contains k = true
      · rw [if_pos hk]
        by_cases hs : pyStartsWith s varSentinel = true
        · rw [if_pos hs]
          simp only [List.not_mem_nil, false_iff]
          rintro ⟨-, -, hw, hsw⟩
          injection hw with hsv
          rw [← hsv] at hsw
          rw [hsw] at hs
          cases hs
        · rw [if_neg hs]
          simp only [List.mem_singleton]
          constructor
          · intro h
            injection h with h₁ h₂
            refine ⟨h₁, hk, by rw [h₂], ?_⟩
            rw [h₂]
            simpa using hs
          · rintro ⟨h₁, -, hw, -⟩
            injection hw with hsv
            rw [h₁, hsv]
      · rw [if_neg hk]
        simp only [List.not_mem_nil, false_iff]
        rintro ⟨-, hks, -, -⟩
        exact hk hks
  | int n => simp [directHit]
  | bool b => simp [directHit]
  | null => simp [directHit]
  | seq xs => simp [directHit]
  | map es => simp [directHit]

end DabValidator

namespace DabValidator

mutual

theorem sensOccs_char :
    ∀ (y : Yaml), yamlNodup y = true →
      ∀ (pes : List PathElem) (v : String),
        ((pes, v) ∈ sensOccs y [] ↔
          sensLast pes = true
          ∧ Yaml.atPath pes y = some (Yaml.str v)
          ∧ pyStartsWith v varSentinel = false)
  | .str s, _ => by
      intro pes v
      simp only [sensOccs, List.not_mem_nil, false_iff]
      rintro ⟨hsl, hap, -⟩
      cases pes with
      | nil => simp [sensLast] at hsl
      | cons e rest => cases e <;> simp [Yaml.atPath] at hap
  | .int n, _ => by
      intro pes v
      simp only [sensOccs, List.not_mem_nil, false_iff]
      rintro ⟨hsl, hap, -⟩
      cases pes with
      | nil => simp [sensLast] at hsl
      | cons e rest => cases e <;> simp [Yaml.atPath] at hap
  | .bool b, _ => by
      intro pes v
      simp only [sensOccs, List.not_mem_nil, false_iff]
      rintro ⟨hsl, hap, -⟩
      cases pes with
      | nil => simp [sensLast] at hsl
      | cons e rest => cases e <;> simp [Yaml.atPath] at hap
  | .null, _ => by
      intro pes v
      simp only [sensOccs, List.not_mem_nil, false_iff]
      rintro ⟨hsl, hap, -⟩
      cases pes with
      | nil => simp [sensLast] at hsl
      | cons e rest => cases e <;> simp [Yaml.atPath] at hap
  | .map es, hnd => by
      intro pes v
      have hkd : keysDistinct (es.map Prod.fst) = true := by
        rw [yamlNodup, Bool.and_eq_true] at hnd
        exact hnd.1
      have hne : yamlNodupEntries es = true := by
        rw [yamlNodup, Bool.and_eq_true] at hnd
        exact hnd.2
      rw [sensOccs, sensOccsEntries_char es hne pes v]
      constructor
      · rintro ⟨k, w, hm, hcase⟩
        have hlk : Yaml.lookup es k = some w := mem_lookup es k w hkd hm
        rcases hcase with ⟨hp, hks, hw, hsw⟩ | ⟨suf, hp, hsl, hap, hsw⟩
        · subst hp
          refine ⟨hks, ?_, hsw⟩
          simp [Yaml.atPath, hlk, hw]
        · subst hp
          have hsufne : suf ≠ [] := sensLast_nonempty suf hsl
          refine ⟨?_, ?_, hsw⟩
          · rw [sensLast_cons _ suf hsufne]
            exact hsl
          · simp [Yaml.atPath, hlk, hap]
      · rintro ⟨hsl, hap, hsw⟩
        cases pes with
        | nil => simp [sensLast] at hsl
        | cons e rest =>
            cases e with
            | idx i => simp [Yaml.atPath] at hap
            | key k₀ =>
                cases hlk : Yaml.lookup es k₀ with
                | none => simp [Yaml.atPath, hlk] at hap
                | some w =>
                    have hap' : Yaml.atPath rest w = some (Yaml.str v) := by
                      simpa [Yaml.atPath, hlk] using hap
                    have hm := lookup_mem es k₀ w hlk
                    cases rest with
                    | nil =>
                        have hw : w = Yaml.str v := by
                          simpa [Yaml.atPath] using hap'
                        exact ⟨k₀, w, hm, Or.inl ⟨rfl, hsl, hw, hsw⟩⟩
                    | cons e' rest' =>
                        refine ⟨k₀, w, hm,
                          Or.inr ⟨e' :: rest', rfl, ?_, hap', hsw⟩⟩
                        rw [← sensLast_cons (PathElem.key k₀) (e' :: rest')
                          (by simp)]
                        exact hsl
  | .seq xs, hnd => by
      intro pes v
      have hni : yamlNodupItems xs = true := hnd
      rw [sensOccs, sensOccsItems_char xs hni 0 pes v]
      constructor
      · rintro ⟨j, x, suf, hg, hp, hsl, hap, hsw⟩
        subst hp
        have hsufne : suf ≠ [] := sensLast_nonempty suf hsl
        refine ⟨?_, ?_, hsw⟩
        · rw [sensLast_cons _ suf hsufne]
          exact hsl
        · have hg' : xs[j]? = some x := by simpa using hg
          simp [Yaml.atPath, Nat.zero_add, hg', hap]
      · rintro ⟨hsl, hap, hsw⟩
        cases pes with
        | nil => simp [sensLast] at hsl
        | cons e rest =>
            cases e with
            | key k => simp [Yaml.atPath] at hap
            | idx j =>
                cases hg : xs.get? j with
                | none =>
                    have hg' : xs[j]? = none := by simpa using hg
                    simp [Yaml.atPath, hg'] at hap
                | some x =>
                    have hg' : xs[j]? = some x := by simpa using hg
                    have hap' : Yaml.atPath rest x = some (Yaml.str v) := by
                      simpa [Yaml.atPath, hg'] using hap
                    cases rest with
                    | nil => simp [sensLast] at hsl
                    | cons e' rest' =>
                        refine ⟨j, x, e' :: rest', hg, by rw [Nat.zero_add],
                          ?_, hap', hsw⟩
                        rw [← sensLast_cons (PathElem.idx j) (e' :: rest')
                          (by simp)]
                        exact hsl

theorem sensOccsEntries_char :
    ∀ (es : List (String × Yaml)), yamlNodupEntries es = true →
      ∀ (pes : List PathElem) (v : String),
        ((pes, v) ∈ sensOccsEntries es [] ↔
          ∃ k w, (k, w) ∈ es ∧
            ((pes = [PathElem.key k] ∧ sensitiveFields.contains k = true
                ∧ w = Yaml.str v ∧ pyStartsWith v varSentinel = false)
             ∨ (∃ suf, pes = PathElem.key k :: suf
                 ∧ sensLast suf = true
                 ∧ Yaml.atPath suf w = some (Yaml.str v)
                 ∧ pyStartsWith v varSentinel = false)))
  | [], _ => by
      intro pes v
      simp [sensOccsEntries]
  | (k', v') :: rest, hne => by
      intro pes v
      have hne' : yamlNodup v' = true ∧ yamlNodupEntries rest = true := by
        rw [yamlNodupEntries, Bool.and_eq_true] at hne
        exact hne
      have hchar := sensOccs_char v' hne'.1
      have hrest := sensOccsEntries_char rest hne'.2
      have hshift : sensOccs v' [PathElem.key k']
          = (sensOccs v' []).map (fun o => (PathElem.key k' :: o.1, o.2)) := by
        have h := sensOccs_shift v' [] [PathElem.key k']
        simpa using h
      rw [sensOccsEntries]
      simp only [List.mem_append, List.nil_append]
      constructor
      · rintro ((hd | hnest) | htail)
        · obtain ⟨hp, hks, hw, hsw⟩ := (mem_directHit k' v' [] pes v).mp hd
          exact ⟨k', v', List.mem_cons_self _ _,
            Or.inl ⟨by simpa using hp, hks, hw, hsw⟩⟩
        · rw [hshift] at hnest
          obtain ⟨o, ho, heq⟩ := List.mem_map.mp hnest
          obtain ⟨suf, w'⟩ := o
          injection heq with h₁ h₂
          have h₁' : PathElem.key k' :: suf = pes := h₁
          have h₂' : w' = v := h₂
          rw [h₂'] at ho
          obtain ⟨hsl, hap, hsw⟩ := (hchar suf v).mp ho
          exact ⟨k', v', List.mem_cons_self _ _,
            Or.inr ⟨suf, h₁'.symm, hsl, hap, hsw⟩⟩
        · obtain ⟨k, w, hm, hcase⟩ := (hrest pes v).mp htail
          exact ⟨k, w, List.mem_cons_of_mem _ hm, hcase⟩
      · rintro ⟨k, w, hm, hcase⟩
        rcases List.mem_cons.mp hm with heq | hmr
        · injection heq with hk hv
          subst hk
          subst hv
          rcases hcase with ⟨hp, hks, hw, hsw⟩ | ⟨suf, hp, hsl, hap, hsw⟩
          · exact Or.inl (Or.inl ((mem_directHit k w [] pes v).mpr
              ⟨by simpa using hp, hks, hw, hsw⟩))
          · refine Or.inl (Or.inr ?_)
            rw [hshift]
            refine List.mem_map.mpr ⟨(suf, v), (hchar suf v).mpr
              ⟨hsl, hap, hsw⟩, ?_⟩
            rw [hp]
        · exact Or.inr ((hrest pes v).mpr ⟨k, w, hmr, hcase⟩)

theorem sensOccsItems_char :
    ∀ (xs : List Yaml), yamlNodupItems xs = true →
      ∀ (i₀ : Nat) (pes : List PathElem) (v : String),
        ((pes, v) ∈ sensOccsItems xs [] i₀ ↔
          ∃ j x suf, xs.get? j = some x
            ∧ pes = PathElem.idx (i₀ + j) :: suf
            ∧ sensLast suf = true
            ∧ Yaml.atPath suf x = some (Yaml.str v)
            ∧ pyStartsWith v varSentinel = false)
  | [], _ => by
      intro i₀ pes v
      simp [sensOccsItems]
  | x :: rest, hni => by
      intro i₀ pes v
      have hni' : yamlNodup x = true ∧ yamlNodupItems rest = true := by
        rw [yamlNodupItems, Bool.and_eq_true] at hni
        exact hni
      have hchar := sensOccs_char x hni'.1
      have hrest := sensOccsItems_char rest hni'.2
      have hshift : sensOccs x [PathElem.idx i₀]
          = (sensOccs x []).map (fun o => (PathElem.idx i₀ :: o.1, o.2)) := by
        have h := sensOccs_shift x [] [PathElem.idx i₀]
        simpa using h
      rw [sensOccsItems]
      simp only [List.mem_append, List.nil_append]
      constructor
      · rintro (hh | ht)
        · rw [hshift] at hh
          obtain ⟨o, ho, heq⟩ := List.mem_map.mp hh
          obtain ⟨suf, w'⟩ := o
          injection heq with h₁ h₂
          have h₁' : PathElem.idx i₀ :: suf = pes := h₁
          have h₂' : w' = v := h₂
          rw [h₂'] at ho
          obtain ⟨hsl, hap, hsw⟩ := (hchar suf v).mp ho
          exact ⟨0, x, suf, rfl, h₁'.symm, hsl, hap, hsw⟩
        · obtain ⟨j, x', suf, hg, hp, hsl, hap, hsw⟩ :=
            ((hrest (i₀ + 1)) pes v).mp ht
          refine ⟨j + 1, x', suf, hg, ?_, hsl, hap, hsw⟩
          rw [hp]
          have harith : i₀ + 1 + j = i₀ + (j + 1) := by omega
          rw [harith]
      · rintro ⟨j, x', suf, hg, hp, hsl, hap, hsw⟩
        cases j with
        | zero =>
            have hg' : some x = some x' := hg
            injection hg' with hx
            subst hx
            refine Or.inl ?_
            rw [hshift]
            refine List.mem_map.mpr ⟨(suf, v), (hchar suf v).mpr
              ⟨hsl, hap, hsw⟩, ?_⟩
            rw [hp]
            simp
        | succ j' =>
            refine Or.inr (((hrest (i₀ + 1)) pes v).mpr
              ⟨j', x', suf, hg, ?_, hsl, hap, hsw⟩)
            rw [hp]
            have harith : i₀ + (j' + 1) = i₀ + 1 + j' := by omega
            rw [harith]

end

end DabValidator

namespace DabValidator

theorem sensOccs_ne_nil (y : Yaml) (hnd : yamlNodup y = true)
    (pes : List PathElem) (v : String) (h : (pes, v) ∈ sensOccs y []) :
    pes ≠ [] :=
  sensLast_nonempty pes ((sensOccs_char y hnd pes v).mp h).1

theorem directHit_cases (k : String) (w : Yaml) (pre : List PathElem) :
    directHit k w pre = []
    ∨ ∃ s, directHit k w pre = [(pre ++ [PathElem.key k], s)] := by
  cases w with
  | str s =>
      rw [directHit]
      by_cases hk : sensitiveFields.contains k = true
      · rw [if_pos hk]
        by_cases hs : pyStartsWith s varSentinel = true
        · rw [if_pos hs]
          exact Or.inl rfl
        · rw [if_neg hs]
          exact Or.inr ⟨s, rfl⟩
      · rw [if_neg hk]
        exact Or.inl rfl
  | int n => exact Or.inl (by simp [directHit])
  | bool b => exact Or.inl (by simp [directHit])
  | null => exact Or.inl (by simp [directHit])
  | seq xs => exact Or.inl (by simp [directHit])
  | map es => exact Or.inl (by simp [directHit])

mutual

theorem sensOccs_nodup :
    ∀ (y : Yaml), yamlNodup y = true → ((sensOccs y []).map Prod.fst).Nodup
  | .str _, _ => by simp [sensOccs]
  | .int _, _ => by simp [sensOccs]
  | .bool _, _ => by simp [sensOccs]
  | .null, _ => by simp [sensOccs]
  | .map es, hnd => by
      rw [yamlNodup, Bool.and_eq_true] at hnd
      rw [sensOccs]
      exact sensOccsEntries_nodup es hnd.1 hnd.2
  | .seq xs, hnd => by
      rw [sensOccs]
      exact sensOccsItems_nodup xs hnd 0

theorem sensOccsEntries_nodup :
    ∀ (es : List (String × Yaml)),
      keysDistinct (es.map Prod.fst) = true → yamlNodupEntries es = true →
      ((sensOccsEntries es []).map Prod.fst).Nodup
  | [], _, _ => by simp [sensOccsEntries]
  | (k', v') :: rest, hkd, hne => by
      rw [List.map_cons, keysDistinct, Bool.and_eq_true] at hkd
      rw [yamlNodupEntries, Bool.and_eq_true] at hne
      have hnv : yamlNodup v' = true := hne.1
      have hshift : sensOccs v' [PathElem.key k']
          = (sensOccs v' []).map (fun o => (PathElem.key k' :: o.1, o.2)) := by
        have h := sensOccs_shift v' [] [PathElem.key k']
        simpa using h
      have hih := sensOccsEntries_nodup rest hkd.2 hne.2
      have hvnodup := sensOccs_nodup v' hnv
      have hsa : (sensOccs v' [PathElem.key k']).map Prod.fst
          = ((sensOccs v' []).map Prod.fst).map
              (fun p => PathElem.key k' :: p) := by
        rw [hshift, List.map_map, List.map_map]
        rfl
      have hsanodup : ((sensOccs v' [PathElem.key k']).map Prod.fst).Nodup := by
        rw [hsa]
        exact List.Nodup.map (fun p q h => by injection h) hvnodup
      have hsahead : ∀ p, p ∈ (sensOccs v' [PathElem.key k']).map Prod.fst →
          ∃ q, p = PathElem.key k' :: q ∧ q ≠ [] := by
        intro p hp
        rw [hsa] at hp
        obtain ⟨q, hq, heq⟩ := List.mem_map.mp hp
        refine ⟨q, heq.symm, ?_⟩
        obtain ⟨o, ho, hqo⟩ := List.mem_map.mp hq
        obtain ⟨qs, v₀⟩ := o
        have hq' : qs = q := hqo
        subst hq'
        exact sensOccs_ne_nil v' hnv qs v₀ ho
      have hrahead : ∀ p, p ∈ (sensOccsEntries rest []).map Prod.fst →
          ∃ k t, k ∈ rest.map Prod.fst ∧ p = PathElem.key k :: t := by
        intro p hp
        obtain ⟨o, ho, hpo⟩ := List.mem_map.mp hp
        obtain ⟨ps, v₀⟩ := o
        have hpo' : ps = p := hpo
        subst hpo'
        obtain ⟨k, w, hm, hcase⟩ :=
          (sensOccsEntries_char rest hne.2 ps v₀).mp ho
        rcases hcase with ⟨hp', -, -, -⟩ | ⟨suf, hp', -, -, -⟩
        · exact ⟨k, [], List.mem_map.mpr ⟨(k, w), hm, rfl⟩, hp'⟩
        · exact ⟨k, suf, List.mem_map.mpr ⟨(k, w), hm, rfl⟩, hp'⟩
      rw [sensOccsEntries]
      simp only [List.nil_append, List.map_append]
      refine List.Nodup.append (List.Nodup.append ?_ hsanodup ?_) hih ?_
      · rcases directHit_cases k' v' [] with h | ⟨s, h⟩ <;> rw [h] <;> simp
      · intro p hpd hps
        rcases directHit_cases k' v' [] with h | ⟨s, h⟩
        · rw [h] at hpd
          simp at hpd
        · rw [h] at hpd
          simp at hpd
          obtain ⟨q, hq, hqne⟩ := hsahead p hps
          rw [hpd] at hq
          injection hq with h₁ h₂
          exact hqne h₂.symm
      · intro p hp hpr
        obtain ⟨k, t, hkm, hpt⟩ := hrahead p hpr
        have hk' : ∃ t', p = PathElem.key k' :: t' := by
          rcases List.mem_append.mp hp with hpd | hps
          · rcases directHit_cases k' v' [] with h | ⟨s, h⟩
            · rw [h] at hpd
              simp at hpd
            · rw [h] at hpd
              simp at hpd
              exact ⟨[], hpd⟩
          · obtain ⟨q, hq, -⟩ := hsahead p hps
            exact ⟨q, hq⟩
        obtain ⟨t', hpt'⟩ := hk'
        rw [hpt'] at hpt
        injection hpt with h₁ h₃
        injection h₁ with h₂
        rw [← h₂] at hkm
        have hcontra := hkd.1
        simp at hcontra
        obtain ⟨o, hom, hoe⟩ := List.mem_map.mp hkm
        obtain ⟨kk, ww⟩ := o
        have hkk : kk = k' := hoe
        subst hkk
        exact hcontra ww hom

theorem sensOccsItems_nodup :
    ∀ (xs : List Yaml), yamlNodupItems xs = true → ∀ (i₀ : Nat),
      ((sensOccsItems xs [] i₀).map Prod.fst).Nodup
  | [], _, _ => by simp [sensOccsItems]
  | x :: rest, hni, i₀ => by
      rw [yamlNodupItems, Bool.and_eq_true] at hni
      have hshift : sensOccs x [PathElem.idx i₀]
          = (sensOccs x []).map (fun o => (PathElem.idx i₀ :: o.1, o.2)) := by
        have h := sensOccs_shift x [] [PathElem.idx i₀]
        simpa using h
      have hsa : (sensOccs x [PathElem.idx i₀]).map Prod.fst
          = ((sensOccs x []).map Prod.fst).map
              (fun p => PathElem.idx i₀ :: p) := by
        rw [hshift, List.map_map, List.map_map]
        rfl
      have hsanodup : ((sensOccs x [PathElem.idx i₀]).map Prod.fst).Nodup := by
        rw [hsa]
        exact List.Nodup.map (fun p q h => by injection h) (sensOccs_nodup x hni.1)
      have hih := sensOccsItems_nodup rest hni.2 (i₀ + 1)
      rw [sensOccsItems]
      simp only [List.nil_append, List.map_append]
      refine List.Nodup.append hsanodup hih ?_
      intro p hps hpr
      have hhead : ∃ q, p = PathElem.idx i₀ :: q := by
        rw [hsa] at hps
        obtain ⟨q, hq, heq⟩ := List.mem_map.mp hps
        exact ⟨q, heq.symm⟩
      obtain ⟨q, hpq⟩ := hhead
      obtain ⟨o', ho', hpo'⟩ := List.mem_map.mp hpr
      obtain ⟨ps, v₀⟩ := o'
      have hps' : ps = p := hpo'
      subst hps'
      obtain ⟨j, x', suf, -, hp', -, -, -⟩ :=
        (sensOccsItems_char rest hni.2 (i₀ + 1) ps v₀).mp ho'
      rw [hpq] at hp'
      injection hp' with h₁ h₃
      injection h₁ with h₂
      omega

end

end DabValidator

namespace DabValidator

/-- C3: On a tree whose mappings have pairwise-distinct keys (the invariant
`yaml.safe_load` guarantees for parsed documents), the variable-usage
evaluator emits exactly the list of occurrences of sensitive mapping keys
with hardcoded string values, one error-severity finding per occurrence,
carrying the rendered path (mapping keys contribute a dotted component,
without the dot at the root; sequence indices contribute a bracketed
index), the file path and the literal value.  The occurrence paths are
pairwise distinct, and a path/value pair is an occurrence precisely when
the path ends in a sensitive mapping key, navigating the tree along the
path reaches exactly that string value, and the value does not start with
the variable sentinel.  In particular non-string values and non-sensitive
keys never produce such a finding. -/
theorem variable_usage_policy (cfg : Yaml) (fp : String)
    (hnd : yamlNodup cfg = true) :
    checkVariableUsagePolicy cfg fp
      = (sensOccs cfg []).map
          (fun o => Finding.hardcodedSensitive (renderPath o.1) fp o.2)
    ∧ ((sensOccs cfg []).map Prod.fst).Nodup
    ∧ ∀ (pes : List PathElem) (v : String),
        ((pes, v) ∈ sensOccs cfg [] ↔
          sensLast pes = true
          ∧ Yaml.atPath pes cfg = some (Yaml.str v)
          ∧ pyStartsWith v varSentinel = false) :=
  ⟨checkObject_occs fp cfg [], sensOccs_nodup cfg hnd,
   fun pes v => sensOccs_char cfg hnd pes v⟩

/-- C3 witness: on the demo configuration the evaluator reports exactly the
hardcoded `existing_cluster_id` at the root, and the occurrence
characterization holds at that path. -/
theorem variable_usage_policy_witness :
    yamlNodup demoVarCfg = true
    ∧ checkVariableUsagePolicy demoVarCfg "resources/cfg.yml"
        = [Finding.hardcodedSensitive "existing_cluster_id"
            "resources/cfg.yml" "abc-123"]
    ∧ (([PathElem.key "existing_cluster_id"], "abc-123")
          ∈ sensOccs demoVarCfg [] ↔
        sensLast [PathElem.key "existing_cluster_id"] = true
        ∧ Yaml.atPath [PathElem.key "existing_cluster_id"] demoVarCfg
            = some (Yaml.str "abc-123")
        ∧ pyStartsWith "abc-123" varSentinel = false) :=
  ⟨by decide,
   by
     rw [(variable_usage_policy demoVarCfg "resources/cfg.yml" (by decide)).1]
     decide,
   (variable_usage_policy demoVarCfg "resources/cfg.yml" (by decide)).2.2
     [PathElem.key "existing_cluster_id"] "abc-123"⟩

end DabValidator
